import Mathlib

/-!
Verification of the memorix memory engine against its specification.

This file is a shallow embedding, in Lean, of the TypeScript sources of the
repository: src/store/file-lock.ts, src/store/persistence.ts,
src/project/aliases.ts, src/memory/observations.ts and
src/store/orama-store.ts.  Pure functions become Lean functions; the
module-level mutable state of the TypeScript modules becomes explicit state
passing; code that can throw returns Except.

Repository functions that the analysed sources import but whose files are not
part of the analysed set (the entity extractor, the token counter, the
embedding provider) and the ranking internals of the external Orama search
library are taken as parameters, so every theorem below holds for all
possible behaviours of those functions.

JavaScript string primitives used by the sources (startsWith, replace of a
single character, split, toLowerCase, stable Array.sort) are embedded as
structurally recursive functions over the character lists of Lean strings so
that every definition is executable by the kernel.
-/

namespace Memorix

/-! ## Character level string helpers -/

/-- Embedding of the JavaScript startsWith check, recursing over characters. -/
def strStartsWithGo : List Char → List Char → Bool
  | _, [] => true
  | [], _ :: _ => false
  | c :: cs, d :: ds => c == d && strStartsWithGo cs ds

/-- Embedding of the JavaScript s.startsWith(p) test. -/
def strStartsWith (s p : String) : Bool :=
  strStartsWithGo s.data p.data

/-- Embedding of the JavaScript s.toLowerCase() call, mapping each character. -/
def lowerStr (s : String) : String :=
  ⟨s.data.map Char.toLower⟩

/-- Embedding of the JavaScript id.split(sep).pop() idiom for a slash
separator: the suffix of the string after its last slash. -/
def lastSegment (s : String) : String :=
  ⟨(s.data.reverse.takeWhile (fun c => c != '/')).reverse⟩

/-- Lexicographic character comparison, embedding the ordering that the
JavaScript localeCompare comparison induces on plain ASCII timestamps. -/
def strLexLt : List Char → List Char → Bool
  | [], [] => false
  | [], _ :: _ => true
  | _ :: _, [] => false
  | c :: cs, d :: ds => if c < d then true else if d < c then false else strLexLt cs ds

/-- Stable insertion of an element into a list: the element is placed before
the first entry that the strict comes-before test puts after it, and after
every entry that compares equal.  This matches the placement that the stable
JavaScript Array.sort gives an element relative to earlier ones. -/
def insertBefore (lt : α → α → Bool) (x : α) : List α → List α
  | [] => [x]
  | y :: ys => if lt x y then x :: y :: ys else y :: insertBefore lt x ys

/-- Stable sort by repeated insertion, embedding the stable JavaScript
Array.sort with a comparator whose strict part is the given test. -/
def stableSortBy (lt : α → α → Bool) (l : List α) : List α :=
  l.foldl (fun acc a => insertBefore lt a acc) []

/-- Replacement of the first element satisfying a test, embedding the
in-place mutation of the object that a find call returned. -/
def updateFirst (p : α → Bool) (f : α → α) : List α → List α
  | [] => []
  | x :: xs => if p x then f x :: xs else x :: updateFirst p f xs

/-! ## File lock (src/store/file-lock.ts) -/

/-- Constant LOCK_STALE_MS of file-lock.ts: a lock older than this many
milliseconds is considered stale. -/
def LOCK_STALE_MS : Nat := 10000

/-- Constant MAX_RETRIES of file-lock.ts: number of loop iterations of
acquireLock before the final force attempt. -/
def MAX_RETRIES : Nat := 60

/-- Observation one attempt of acquireLock makes of the lock file.
free means the exclusive create succeeds; held means the open fails with
EEXIST and the stat that follows reports a lock file of the given age in
milliseconds; vanished means the open fails with EEXIST but the stat fails
because the file is already gone; ioErr means the open fails with an error
code other than EEXIST. -/
inductive LockObs where
  | free
  | held (ageMs : Nat)
  | vanished
  | ioErr (code : Nat)
  deriving Repr, DecidableEq

/-- Result of the acquireLock embedding.  acquired records the index of the
successful attempt and how many 50 ms waits were taken before it;
lockTimeout is the error thrown after the final force attempt fails;
ioError is an error other than EEXIST propagating out of the loop. -/
inductive AcquireResult where
  | acquired (attempt : Nat) (sleeps : Nat)
  | lockTimeout
  | ioError (code : Nat)
  deriving Repr, DecidableEq

/-- Embedding of the retry loop of acquireLock.  The environment function
env gives the observation of attempt i; fuel is the number of remaining loop
iterations, i the index of the current attempt and sleeps the number of
50 ms waits taken so far.  A fresh held lock causes a wait and a retry; a
stale held lock (age strictly above LOCK_STALE_MS) is unlinked and the loop
retries immediately; a vanished lock retries immediately; a non-EEXIST error
is rethrown.  When the fuel is exhausted the code force-unlinks the lock and
makes one final exclusive create, and a failure of that final attempt of any
kind is reported as the lock timeout. -/
def acquireGo (env : Nat → LockObs) : Nat → Nat → Nat → AcquireResult
  | 0, i, sleeps =>
    match env i with
    | .free => .acquired i sleeps
    | _ => .lockTimeout
  | fuel + 1, i, sleeps =>
    match env i with
    | .free => .acquired i sleeps
    | .held age => if LOCK_STALE_MS < age
        then acquireGo env fuel (i + 1) sleeps
        else acquireGo env fuel (i + 1) (sleeps + 1)
    | .vanished => acquireGo env fuel (i + 1) sleeps
    | .ioErr c => .ioError c

/-- Embedding of acquireLock of file-lock.ts. -/
def acquireLock (env : Nat → LockObs) : AcquireResult :=
  acquireGo env MAX_RETRIES 0 0

/-- Test for the observations on which the loop keeps retrying. -/
def isRetryObs : LockObs → Bool
  | .held _ => true
  | .vanished => true
  | _ => false

/-! ## Persistence layer loaders (src/store/persistence.ts)

Reading and JSON-parsing a durable file has three relevant outcomes, which
the loaders of persistence.ts distinguish by control flow: the file is
missing (ENOENT), the file exists but does not parse, or parsing succeeds
with a payload.  The payload type is per loader. -/

/-- Outcome of reading and parsing one durable file. -/
inductive ReadResult (α : Type) where
  | enoent
  | parseError
  | ok (v : α)
  deriving Repr, DecidableEq

/-! The Observation record as built by observations.ts.  The analysed source
constructs exactly these fields; access counting lives on the index
documents, not on the durable record. -/

/-- Observation record of the memory store. -/
structure Observation where
  id : Nat
  entityName : String
  type : String
  title : String
  narrative : String
  facts : List String
  filesModified : List String
  concepts : List String
  tokens : Nat
  createdAt : String
  updatedAt : Option String
  projectId : String
  hasCausalLanguage : Bool
  topicKey : Option String
  revisionCount : Nat
  sessionId : Option String
  deriving Repr, DecidableEq

/-- Embedding of loadObservationsJson: a missing file is an empty list, a
parse failure is rethrown to the caller, a parsed payload is returned as is. -/
def loadObservationsJson : ReadResult (List Observation) → Except Unit (List Observation)
  | .enoent => .ok []
  | .parseError => .error ()
  | .ok v => .ok v

/-- Embedding of loadSessionsJson: a missing file is an empty list, a parse
failure is rethrown, a parsed payload is returned as is.  Session records are
opaque here. -/
def loadSessionsJson : ReadResult (List String) → Except Unit (List String)
  | .enoent => .ok []
  | .parseError => .error ()
  | .ok v => .ok v

/-- Embedding of loadIdCounter: the catch handler swallows every failure and
returns 1, and a parsed object without a nextId field also yields 1. -/
def loadIdCounter : ReadResult (Option Nat) → Nat
  | .enoent => 1
  | .parseError => 1
  | .ok none => 1
  | .ok (some n) => n

/-- Embedding of loadArchivedObservations: the catch handler swallows every
failure and returns the empty list, and a parsed payload that is not an
array (the none payload) also yields the empty list. -/
def loadArchivedObservations : ReadResult (Option (List Observation)) → List Observation
  | .enoent => []
  | .parseError => []
  | .ok none => []
  | .ok (some v) => v

/-! ## Project alias registry (src/project/aliases.ts) -/

/-- Detected project information, input of registerAlias. -/
structure ProjectInfo where
  id : String
  rootPath : String
  gitRemote : Option String
  deriving Repr, DecidableEq

/-- Group of project ids referring to the same physical project. -/
structure AliasGroup where
  canonical : String
  aliases : List String
  rootPaths : List String
  gitRemote : Option String
  deriving Repr, DecidableEq

/-- Alias registry contents (the groups field of the version 1 file). -/
structure AliasRegistry where
  groups : List AliasGroup
  deriving Repr, DecidableEq

/-- Embedding of normalizePath of aliases.ts on a non-Windows platform:
backslashes become forward slashes and trailing slashes are stripped; the
Windows-only lowercasing branch is not taken. -/
def normalizePath (p : String) : String :=
  ⟨((p.data.map (fun c => if c == '\\' then '/' else c)).reverse.dropWhile
      (fun c => c == '/')).reverse⟩

/-- Embedding of idPriority of aliases.ts: placeholder ids rank 0, local ids
rank 1, git remote style ids rank 2. -/
def idPriority (id : String) : Nat :=
  if strStartsWith id "placeholder/" then 0
  else if strStartsWith id "local/" then 1
  else 2

/-- Embedding of selectCanonical of aliases.ts: the head of the stable
descending sort of the aliases by priority, mirroring the stable JavaScript
Array.sort with comparator idPriority(b) - idPriority(a) followed by
indexing at 0. -/
def selectCanonical (aliases : List String) : String :=
  (stableSortBy (fun a b => idPriority b < idPriority a) aliases).headD ""

/-- Embedding of the match test of findMatchingGroup of aliases.ts: a group
matches when it already lists the id, lists the normalized root path, or has
the same git remote. -/
def groupMatches (info : ProjectInfo) (g : AliasGroup) : Bool :=
  g.aliases.contains info.id
  || g.rootPaths.contains (normalizePath info.rootPath)
  || (match info.gitRemote, g.gitRemote with
      | some r, some gr => gr == r
      | _, _ => false)

/-- Embedding of the merge branch of registerAlias: union the id, the
normalized root path and a newly learned git remote into the group, then
recompute the canonical id. -/
def mergeIntoGroup (info : ProjectInfo) (g : AliasGroup) : AliasGroup :=
  let aliases := if g.aliases.contains info.id then g.aliases else g.aliases ++ [info.id]
  let rootPaths :=
    if g.rootPaths.contains (normalizePath info.rootPath) then g.rootPaths
    else g.rootPaths ++ [normalizePath info.rootPath]
  let gitRemote := match g.gitRemote, info.gitRemote with
    | none, some r => some r
    | gr, _ => gr
  { canonical := selectCanonical aliases
    aliases := aliases
    rootPaths := rootPaths
    gitRemote := gitRemote }

/-- Embedding of registerAlias of aliases.ts: merge into the first matching
group, or append a fresh group.  Returns the updated registry and the
canonical project id. -/
def registerAlias (reg : AliasRegistry) (info : ProjectInfo) : AliasRegistry × String :=
  match reg.groups.find? (groupMatches info) with
  | some g =>
    let merged := mergeIntoGroup info g
    ({ groups := updateFirst (groupMatches info) (mergeIntoGroup info) reg.groups },
     merged.canonical)
  | none =>
    let ng : AliasGroup :=
      { canonical := info.id
        aliases := [info.id]
        rootPaths := [normalizePath info.rootPath]
        gitRemote := info.gitRemote }
    ({ groups := reg.groups ++ [ng] }, info.id)

/-- Embedding of resolveAliases of aliases.ts: the alias list of the first
group listing the id (as alias or canonical), or the singleton of the id. -/
def resolveAliases (reg : AliasRegistry) (projectId : String) : List String :=
  match reg.groups.find? (fun g => g.aliases.contains projectId || g.canonical == projectId) with
  | some g => g.aliases
  | none => [projectId]

/-- Index of the first group listing an id, embedding the findIndex scan of
autoMergeByBaseName. -/
def groupIdxOf (groups : List AliasGroup) (id : String) : Option Nat :=
  groups.findIdx? (fun g => g.aliases.contains id || g.canonical == id)

/-- Assoc-list insertion used to embed the byBaseName map of
autoMergeByBaseName; keys keep first-occurrence order as in a JavaScript
Map. -/
def insertByBase (base id : String) : List (String × List String) → List (String × List String)
  | [] => [(base, [id])]
  | (b, l) :: rest =>
    if b == base then (b, l ++ [id]) :: rest else (b, l) :: insertByBase base id rest

/-- Embedding of the grouping of observed ids by base name. -/
def groupByBaseName (ids : List String) : List (String × List String) :=
  ids.foldl (fun m id => insertByBase (lastSegment id) id m) []

/-- Appending of ids into an alias list skipping those already present,
embedding the dedup push loops of autoMergeByBaseName. -/
def pushNew (base : List String) (ids : List String) : List String :=
  ids.foldl (fun acc a => if acc.contains a then acc else acc ++ [a]) base

/-- Absorption of one group into the primary group of a merge: aliases and
root paths are unioned and a git remote is adopted when the primary has
none. -/
def absorbGroup (primary other : AliasGroup) : AliasGroup :=
  { primary with
    aliases := pushNew primary.aliases other.aliases
    rootPaths := pushNew primary.rootPaths other.rootPaths
    gitRemote := match primary.gitRemote with
      | none => other.gitRemote
      | some r => some r }

/-- Descending sort of indices, embedding the sort((a, b) => b - a) call on
the non-primary group indices. -/
def sortDescNat (l : List Nat) : List Nat :=
  stableSortBy (fun a b => b < a) l

/-- Rebuild of the group list after a merge: groups at the absorbed indices
are dropped, the group at the primary index is replaced by the merged group,
all others are kept; this embeds the splice calls (performed in descending
index order) together with the in-place mutation of the primary group. -/
def rebuildGroups (primaryIdx : Nat) (otherIdxs : List Nat) (primary : AliasGroup) :
    Nat → List AliasGroup → List AliasGroup
  | _, [] => []
  | i, g :: rest =>
    if otherIdxs.contains i then rebuildGroups primaryIdx otherIdxs primary (i + 1) rest
    else if i == primaryIdx then primary :: rebuildGroups primaryIdx otherIdxs primary (i + 1) rest
    else g :: rebuildGroups primaryIdx otherIdxs primary (i + 1) rest

/-- Embedding of the body of the per-base-name loop of autoMergeByBaseName.
Returns the updated group list and the merge-count increment. -/
def mergeStep (groups : List AliasGroup) (ids : List String) : List AliasGroup × Nat :=
  if ids.length ≤ 1 then (groups, 0) else
  let exIdxs := (ids.filterMap (groupIdxOf groups)).eraseDups
  let ungrouped := ids.filter (fun id => (groupIdxOf groups id).isNone)
  if exIdxs.length ≤ 1 && ungrouped.length == 0 then (groups, 0) else
  match exIdxs with
  | [] =>
    (groups ++ [{ canonical := selectCanonical ids
                  aliases := ids
                  rootPaths := []
                  gitRemote := none }], 1)
  | primaryIdx :: restIdxs =>
    let otherIdxs := sortDescNat restIdxs
    let primary0 := (groups.get? primaryIdx).getD ⟨"", [], [], none⟩
    let primary1 := { primary0 with aliases := pushNew primary0.aliases ids }
    let others := otherIdxs.filterMap (fun i => groups.get? i)
    let primary2 := others.foldl absorbGroup primary1
    let primary3 := { primary2 with canonical := selectCanonical primary2.aliases }
    (rebuildGroups primaryIdx otherIdxs primary3 0 groups, 1)

/-- Embedding of autoMergeByBaseName of aliases.ts. -/
def autoMergeByBaseName (reg : AliasRegistry) (observedIds : List String) :
    AliasRegistry × Nat :=
  if observedIds.length ≤ 1 then (reg, 0) else
  let r := (groupByBaseName observedIds).foldl
    (fun acc p =>
      let s := mergeStep acc.1 p.2
      (s.1, acc.2 + s.2))
    (reg.groups, 0)
  ({ groups := r.1 }, r.2)

/-- Operation alphabet of the registry: the two mutating entry points. -/
inductive RegistryOp where
  | register (info : ProjectInfo)
  | autoMerge (ids : List String)

/-- Application of one registry operation. -/
def applyRegistryOp (reg : AliasRegistry) : RegistryOp → AliasRegistry
  | .register info => (registerAlias reg info).1
  | .autoMerge ids => (autoMergeByBaseName reg ids).1

/-- Execution of a sequence of registry operations from the empty registry. -/
def runRegistryOps (ops : List RegistryOp) : AliasRegistry :=
  ops.foldl applyRegistryOp { groups := [] }

/-- Canonical-priority invariant of the registry: every group lists its
canonical id among its aliases and no alias outranks the canonical id. -/
def CanonInv (reg : AliasRegistry) : Prop :=
  ∀ g ∈ reg.groups, g.canonical ∈ g.aliases ∧
    ∀ a ∈ g.aliases, idPriority a ≤ idPriority g.canonical

/-! ## Observations manager (src/memory/observations.ts)

The entity extractor, the concept enrichment and the token counter live in
repository files outside the analysed set, and the embedding provider is an
optional external backend; the manager is therefore parameterized by them. -/

/-- Result record of the entity extractor. -/
structure ExtractedEntities where
  files : List String
  identifiers : List String
  hasCausalLanguage : Bool
  deriving Repr, DecidableEq

/-- External dependencies of the observations manager: the entity extractor,
the concept enrichment, the token counter and the optional embedding
provider (none models an absent provider). -/
structure Deps where
  extractEntities : String → ExtractedEntities
  enrichConcepts : List String → ExtractedEntities → List String
  countTextTokens : String → Nat
  embed : String → Option (List Int)

/-- Input record of storeObservation, with the ?? [] defaults of the
optional array fields already folded in. -/
structure StoreInput where
  entityName : String
  type : String
  title : String
  narrative : String
  facts : List String
  filesModified : List String
  concepts : List String
  projectId : String
  topicKey : Option String
  sessionId : Option String
  deriving Repr, DecidableEq

/-- Document stored in the Orama index, as built by observations.ts. -/
structure MemorixDocument where
  id : String
  observationId : Nat
  entityName : String
  type : String
  title : String
  narrative : String
  facts : String
  filesModified : String
  concepts : String
  tokens : Nat
  createdAt : String
  projectId : String
  accessCount : Nat
  lastAccessedAt : String
  embedding : Option (List Int)
  deriving Repr, DecidableEq

/-- Truthiness of an optional string, embedding the JavaScript truthy test
on an optional field: absent and empty strings are falsy. -/
def strTruthy : Option String → Bool
  | none => false
  | some s => s != ""

/-- Text joined for entity extraction: title, narrative and facts.  The
searchable text handed to the embedding provider is the same join. -/
def contentForExtraction (input : StoreInput) : String :=
  String.intercalate " " ([input.title, input.narrative] ++ input.facts)

/-- Files enriched with extracted paths not already present under
case-insensitive comparison with the user-supplied files. -/
def enrichedFilesOf (D : Deps) (input : StoreInput) : List String :=
  let extracted := D.extractEntities (contentForExtraction input)
  input.filesModified ++ extracted.files.filter
    (fun f => !(input.filesModified.any (fun u => lowerStr u == lowerStr f)))

/-- Concepts enriched by the external enrichment function. -/
def enrichedConceptsOf (D : Deps) (input : StoreInput) : List String :=
  D.enrichConcepts input.concepts (D.extractEntities (contentForExtraction input))

/-- Full text over which the token count of the observation is computed. -/
def fullTextOf (D : Deps) (input : StoreInput) : String :=
  String.intercalate " "
    ([input.title, input.narrative] ++ input.facts
      ++ enrichedFilesOf D input ++ enrichedConceptsOf D input)

/-- Token count of the enriched observation content. -/
def tokensOf (D : Deps) (input : StoreInput) : Nat :=
  D.countTextTokens (fullTextOf D input)

/-- Orama document built from an input, as in storeObservation and
upsertObservation; the caller passes the id, creation time and project id of
the record the document describes. -/
def docOf (D : Deps) (input : StoreInput) (id : Nat) (createdAt projectId : String) :
    MemorixDocument :=
  { id := s!"obs-{id}"
    observationId := id
    entityName := input.entityName
    type := input.type
    title := input.title
    narrative := input.narrative
    facts := String.intercalate "\n" input.facts
    filesModified := String.intercalate "\n" (enrichedFilesOf D input)
    concepts := String.intercalate ", "
      ((enrichedConceptsOf D input).map (fun c => ⟨c.data.map (fun ch => if ch == '-' then ' ' else ch)⟩))
    tokens := tokensOf D input
    createdAt := createdAt
    projectId := projectId
    accessCount := 0
    lastAccessedAt := ""
    embedding := D.embed (contentForExtraction input) }

/-- Fresh observation record as built by the non-upsert path of
storeObservation. -/
def freshObservationOf (D : Deps) (input : StoreInput) (id : Nat) (now : String) :
    Observation :=
  { id := id
    entityName := input.entityName
    type := input.type
    title := input.title
    narrative := input.narrative
    facts := input.facts
    filesModified := enrichedFilesOf D input
    concepts := enrichedConceptsOf D input
    tokens := tokensOf D input
    createdAt := now
    updatedAt := none
    projectId := input.projectId
    hasCausalLanguage := (D.extractEntities (contentForExtraction input)).hasCausalLanguage
    topicKey := input.topicKey
    revisionCount := 1
    sessionId := input.sessionId }

/-- Field updates of upsertObservation applied to the existing record:
content fields are replaced from the enriched input, the revision count is
bumped, updatedAt is set to now, and id, createdAt, projectId and topicKey
are untouched; sessionId is replaced only when the input carries a truthy
one. -/
def upsertFields (D : Deps) (input : StoreInput) (now : String) (existing : Observation) :
    Observation :=
  { existing with
    entityName := input.entityName
    type := input.type
    title := input.title
    narrative := input.narrative
    facts := input.facts
    filesModified := enrichedFilesOf D input
    concepts := enrichedConceptsOf D input
    tokens := tokensOf D input
    updatedAt := some now
    hasCausalLanguage := (D.extractEntities (contentForExtraction input)).hasCausalLanguage
    revisionCount := existing.revisionCount + 1
    sessionId := if strTruthy input.sessionId then input.sessionId else existing.sessionId }

/-- State of one observations-manager process together with the durable
files it writes: the in-memory observation list and nextId counter, the
Orama index of the process, and the observations.json and counter.json
contents on disk. -/
structure StoreEnv where
  observations : List Observation
  nextId : Nat
  index : List MemorixDocument
  diskObs : List Observation
  diskNextId : Nat
  deriving Repr, DecidableEq

/-- Embedding of upsertObservation of observations.ts: the existing record
is updated in place, the old index document is removed and the new one
inserted, and under the project lock the disk list is reloaded, the record
replaced (or appended when absent), and the result both persisted and
adopted as the in-memory list.  The id counter is not touched. -/
def upsertObservation (D : Deps) (env : StoreEnv) (existing : Observation)
    (input : StoreInput) (now : String) : Observation × StoreEnv :=
  let updated := upsertFields D input now existing
  let doc := docOf D input existing.id existing.createdAt existing.projectId
  let index2 := (env.index.filter (fun d => d.id != s!"obs-{existing.id}")) ++ [doc]
  let diskObs2 := match env.diskObs.findIdx? (fun o => o.id == existing.id) with
    | some j => env.diskObs.set j updated
    | none => env.diskObs ++ [updated]
  (updated,
   { env with observations := diskObs2, index := index2, diskObs := diskObs2 })

/-- Per-process state used by the cross-process model of storeObservation:
the in-memory list, the counter, the index of the process, and the record
built locally but not yet persisted. -/
structure Proc where
  observations : List Observation
  nextId : Nat
  index : List MemorixDocument
  pending : Option Observation
  deriving Repr, DecidableEq

/-- Shared durable state: observations.json and counter.json. -/
structure SharedDisk where
  diskObs : List Observation
  diskNextId : Nat
  deriving Repr, DecidableEq

/-- Synchronous first phase of the non-upsert path of storeObservation: the
id is allocated from the in-process counter, the record is built, pushed
onto the in-memory list and inserted into the index.  Everything up to the
index insertion happens before the file lock is taken. -/
def storeLocalStep (D : Deps) (input : StoreInput) (now : String) (p : Proc) : Proc :=
  let obs := freshObservationOf D input p.nextId now
  let doc := docOf D input p.nextId now input.projectId
  { observations := p.observations ++ [obs]
    nextId := p.nextId + 1
    index := p.index ++ [doc]
    pending := some obs }

/-- Second phase of the non-upsert path of storeObservation, executed under
the project file lock: the disk list is re-read, the new record is appended
unless a record with its id is already present, the counter becomes the
maximum of the local and disk counters, and both files are written. -/
def storePersistStep (p : Proc) (sh : SharedDisk) : Proc × SharedDisk :=
  match p.pending with
  | none => (p, sh)
  | some obs =>
    let diskObs2 := if sh.diskObs.any (fun o => o.id == obs.id)
      then sh.diskObs else sh.diskObs ++ [obs]
    let merged := max p.nextId sh.diskNextId
    ({ observations := diskObs2, nextId := merged, index := p.index, pending := none },
     { diskObs := diskObs2, diskNextId := merged })

/-- Non-upsert path of storeObservation for a single process, composed from
the two phases. -/
def storeFresh (D : Deps) (env : StoreEnv) (input : StoreInput) (now : String) :
    (Observation × Bool) × StoreEnv :=
  let p1 := storeLocalStep D input now
    { observations := env.observations, nextId := env.nextId, index := env.index, pending := none }
  let r := storePersistStep p1 { diskObs := env.diskObs, diskNextId := env.diskNextId }
  ((freshObservationOf D input env.nextId now, false),
   { observations := r.1.observations
     nextId := r.1.nextId
     index := r.1.index
     diskObs := r.2.diskObs
     diskNextId := r.2.diskNextId })

/-- Embedding of storeObservation of observations.ts: when the input carries
a truthy topic key and a record with the same topic key and project id
exists, the call dispatches to the upsert and reports upserted = true;
otherwise a fresh record is stored. -/
def storeObservation (D : Deps) (env : StoreEnv) (input : StoreInput) (now : String) :
    (Observation × Bool) × StoreEnv :=
  if strTruthy input.topicKey then
    match env.observations.find?
        (fun o => o.topicKey == input.topicKey && o.projectId == input.projectId) with
    | some existing =>
      let r := upsertObservation D env existing input now
      ((r.1, true), r.2)
    | none => storeFresh D env input now
  else storeFresh D env input now

/-- Embedding of migrateProjectIds of observations.ts: records whose project
id is a non-canonical alias are rewritten to the canonical id; when at least
one record changed the rewritten list is persisted once under the lock.
Returns the in-memory list, the disk list, the migrated count and the number
of persist calls. -/
def migrateProjectIds (mem disk : List Observation) (aliasIds : List String)
    (canonicalId : String) : List Observation × List Observation × Nat × Nat :=
  let nonCanonical := aliasIds.filter (fun id => id != canonicalId)
  if nonCanonical.isEmpty then (mem, disk, 0, 0)
  else
    let mem2 := mem.map (fun o =>
      if nonCanonical.contains o.projectId then { o with projectId := canonicalId } else o)
    let migrated := (mem.filter (fun o => nonCanonical.contains o.projectId)).length
    if 0 < migrated then (mem2, mem2, migrated, 1) else (mem2, disk, migrated, 0)

/-! ## Search index (src/store/orama-store.ts)

The scoring, fuzzy matching and hybrid ranking internals of the external
Orama library are taken as a parameter: a ranking function that receives the
documents satisfying the index-side where filter and returns them in score
order.  The faithfulness hypothesis used by the theorems is only that the
ranking returns documents drawn from its input.  The date parsing of the
temporal filter, the time formatting and the icon table (the latter two from
a repository file outside the analysed set) are parameters as well. -/

/-- Compact layer-1 search result entry. -/
structure IndexEntry where
  id : Nat
  time : String
  type : String
  icon : String
  title : String
  tokens : Nat
  matchedFields : Option (List String)
  deriving Repr, DecidableEq

/-- Search options of searchObservations.  The untilDate field embeds the
field named like the until keyword in the source. -/
structure SearchOptions where
  query : Option String
  projectId : Option String
  type : Option String
  since : Option String
  untilDate : Option String
  limit : Option Nat
  maxTokens : Option Nat

/-- Index-side where filter built by searchObservations. -/
structure WhereFilter where
  projectId : Option String
  type : Option String

/-- Test of the where filter against a document. -/
def matchesWhere (w : WhereFilter) (d : MemorixDocument) : Bool :=
  (match w.projectId with
   | none => true
   | some p => d.projectId == p)
  && (match w.type with
      | none => true
      | some t => d.type == t)

/-- External context of the search pipeline: the Orama ranking, the date
parser of the temporal filter, the time formatter and the icon table. -/
structure SearchCtx where
  rank : SearchOptions → List MemorixDocument → List MemorixDocument
  dateVal : String → Int
  fmtTime : String → String
  iconOf : String → String

/-- Soundness of a ranking function: it only returns documents drawn from
its input. -/
def RankSound (rank : SearchOptions → List MemorixDocument → List MemorixDocument) : Prop :=
  ∀ opts l d, d ∈ rank opts l → d ∈ l

/-- Resolved project alias set of a search call; none when no truthy
projectId filter was passed. -/
def projectIdsOf (reg : AliasRegistry) (options : SearchOptions) : Option (List String) :=
  match options.projectId with
  | some p => if p == "" then none else some (resolveAliases reg p)
  | none => none

/-- Multi-alias test: the filter resolved to more than one id. -/
def isMultiAlias (reg : AliasRegistry) (options : SearchOptions) : Bool :=
  match projectIdsOf reg options with
  | some ps => 1 < ps.length
  | none => false

/-- Where filter built by searchObservations: the project id is pushed down
only when the alias set has exactly one element, and the type filter only
when truthy. -/
def whereOf (reg : AliasRegistry) (options : SearchOptions) : WhereFilter :=
  { projectId := match projectIdsOf reg options with
      | some [p] => some p
      | _ => none
    type := match options.type with
      | some t => if t == "" then none else some t
      | none => none }

/-- Limit requested from the index: three times the caller limit when the
post-filter by multiple aliases is active. -/
def requestLimitOf (reg : AliasRegistry) (options : SearchOptions) : Nat :=
  if isMultiAlias reg options then (options.limit.getD 20) * 3 else options.limit.getD 20

/-- Raw hits of the index query: the ranking applied to the documents
satisfying the where filter, cut at the requested limit. -/
def searchRawHits (ctx : SearchCtx) (reg : AliasRegistry) (index : List MemorixDocument)
    (options : SearchOptions) : List MemorixDocument :=
  (ctx.rank options (index.filter (matchesWhere (whereOf reg options)))).take
    (requestLimitOf reg options)

/-- Post-filter of the hits against the alias set, active only when the
alias set has more than one element. -/
def aliasPostFilter (projectIds : Option (List String)) (hits : List MemorixDocument) :
    List MemorixDocument :=
  hits.filter (fun d =>
    match projectIds with
    | none => true
    | some ps => if ps.length ≤ 1 then true else ps.contains d.projectId)

/-- Temporal post-filter by the since and until bounds against createdAt. -/
def temporalFilter (ctx : SearchCtx) (options : SearchOptions)
    (docs : List MemorixDocument) : List MemorixDocument :=
  let docs2 := match options.since with
    | some s => if s == "" then docs
        else docs.filter (fun d => ctx.dateVal s ≤ ctx.dateVal d.createdAt)
    | none => docs
  match options.untilDate with
  | some u => if u == "" then docs2
      else docs2.filter (fun d => ctx.dateVal d.createdAt ≤ ctx.dateVal u)
  | none => docs2

/-- Documents surviving the whole post-filter pipeline: alias post-filter,
temporal filter, and the re-applied caller limit when the multi-alias
post-filter was active. -/
def limitedDocs (ctx : SearchCtx) (reg : AliasRegistry) (index : List MemorixDocument)
    (options : SearchOptions) : List MemorixDocument :=
  let hits := searchRawHits ctx reg index options
  let post := aliasPostFilter (projectIdsOf reg options) hits
  let temp := temporalFilter ctx options post
  if isMultiAlias reg options then temp.take (options.limit.getD 20) else temp

/-- Compact entry built from a document. -/
def entryOfDoc (ctx : SearchCtx) (d : MemorixDocument) : IndexEntry :=
  { id := d.observationId
    time := ctx.fmtTime d.createdAt
    type := d.type
    icon := ctx.iconOf d.type
    title := d.title
    tokens := d.tokens
    matchedFields := none }

/-- Lowercased whitespace-split query tokens of length above one. -/
def queryTokensOf (q : String) : List String :=
  ((lowerStr q).split (fun c => c.isWhitespace)).filter (fun t => 1 < t.length)

/-- Substring containment on the lowercased field value, embedding the
JavaScript includes test; the needles used are query tokens, which are
always nonempty. -/
def containsSub (hayLower needle : String) : Bool :=
  (hayLower.splitOn needle).length != 1

/-- Matched-field annotation of one hit document against the query. -/
def matchedFieldsOf (q : String) (d : MemorixDocument) : List String :=
  let toks := queryTokensOf q
  let fields : List (String × String) :=
    [("title", d.title), ("entity", d.entityName), ("concept", d.concepts),
     ("narrative", d.narrative), ("fact", d.facts), ("file", d.filesModified)]
  let reasons := (fields.filter (fun nv => toks.any (fun t => containsSub (lowerStr nv.2) t))).map
    (fun nv => nv.1)
  if reasons.isEmpty then ["fuzzy"] else reasons

/-- Annotation of the entries with match reasons when a truthy non-blank
query was given; each entry is annotated from the raw hit document carrying
its observation id (observation ids of distinct index documents are
distinct, as in the map-based source loop). -/
def annotateEntries (q : Option String) (hits : List MemorixDocument)
    (entries : List IndexEntry) : List IndexEntry :=
  match q with
  | some query =>
    if query.trim == "" then entries
    else entries.map (fun e =>
      match hits.find? (fun d => d.observationId == e.id) with
      | some d => { e with matchedFields := some (matchedFieldsOf query d) }
      | none => e)
  | none => entries

/-- Embedding of applyTokenBudget of orama-store.ts: entries are taken in
order, stopping before the first entry that would push the running sum above
the budget, except that the first entry is always taken. -/
def applyTokenBudgetGo (maxTokens : Nat) : List IndexEntry → Nat → Bool → List IndexEntry
  | [], _, _ => []
  | e :: rest, used, nonempty =>
    if maxTokens < used + e.tokens && nonempty then []
    else e :: applyTokenBudgetGo maxTokens rest (used + e.tokens) true

/-- Embedding of applyTokenBudget of orama-store.ts. -/
def applyTokenBudget (entries : List IndexEntry) (maxTokens : Nat) : List IndexEntry :=
  applyTokenBudgetGo maxTokens entries 0 false

/-- Sum of the token fields of a list of entries. -/
def sumTokens (entries : List IndexEntry) : Nat :=
  (entries.map (fun e => e.tokens)).sum

/-- Entries returned by searchObservations: the post-filtered documents
mapped to compact entries, annotated, and cut to the token budget when a
positive budget was passed. -/
def searchEntries (ctx : SearchCtx) (reg : AliasRegistry) (index : List MemorixDocument)
    (options : SearchOptions) : List IndexEntry :=
  let hits := searchRawHits ctx reg index options
  let entries := (limitedDocs ctx reg index options).map (entryOfDoc ctx)
  let annotated := annotateEntries options.query hits entries
  match options.maxTokens with
  | some m => if 0 < m then applyTokenBudget annotated m else annotated
  | none => annotated

/-- Access bump of one hit document, as in recordAccessBatch: the access
count of the captured document is incremented and lastAccessedAt set. -/
def bumpDoc (now : String) (h : MemorixDocument) : MemorixDocument :=
  { h with accessCount := h.accessCount + 1, lastAccessedAt := now }

/-- Embedding of recordAccessBatch of orama-store.ts: for every raw hit, the
index document with the same Orama id is replaced by the bumped captured
document. -/
def recordAccessBatch (now : String) (index : List MemorixDocument)
    (hits : List MemorixDocument) : List MemorixDocument :=
  hits.foldl (fun idx h => idx.map (fun d => if d.id == h.id then bumpDoc now h else d)) index

/-- Embedding of searchObservations of orama-store.ts: the entry list is
computed and returned, and the access accounting update of the index is
dispatched on the raw hits without being awaited; the pair holds the
returned entries and the index as the background update leaves it. -/
def searchObservations (ctx : SearchCtx) (reg : AliasRegistry)
    (index : List MemorixDocument) (options : SearchOptions) (now : String) :
    List IndexEntry × List MemorixDocument :=
  (searchEntries ctx reg index options,
   recordAccessBatch now index (searchRawHits ctx reg index options))

/-- Final value of the index document that started as d0 after the access
update for the given hits: the last raw hit with the same Orama id, bumped,
or the original document when no hit shares its id. -/
def lastBump (now : String) (d0 : MemorixDocument) (hits : List MemorixDocument) :
    MemorixDocument :=
  hits.foldl (fun cur h => if d0.id == h.id then bumpDoc now h else cur) d0

/-- Timeline result of getTimeline. -/
structure Timeline where
  before : List IndexEntry
  anchor : Option IndexEntry
  after : List IndexEntry
  deriving Repr, DecidableEq

/-- Entry built by the toIndexEntry helper inside getTimeline. -/
def timelineEntryOf (ctx : SearchCtx) (o : Observation) : IndexEntry :=
  { id := o.id
    time := ctx.fmtTime o.createdAt
    type := o.type
    icon := ctx.iconOf o.type
    title := o.title
    tokens := o.tokens
    matchedFields := none }

/-- Embedding of getTimeline of orama-store.ts: a copy of the in-memory
observation list is sorted by createdAt (stable, as the JavaScript sort),
the anchor is looked up by id, and when it is absent the empty timeline is
returned without an error; the slices around the anchor index embed the
slice calls of the source. -/
def getTimeline (ctx : SearchCtx) (observations : List Observation) (anchorId : Nat)
    (depthBefore depthAfter : Nat) : Timeline :=
  let sorted := stableSortBy (fun a b => strLexLt a.createdAt.data b.createdAt.data) observations
  match sorted.findIdx? (fun o => o.id == anchorId) with
  | none => { before := [], anchor := none, after := [] }
  | some ai =>
    { before := ((sorted.take ai).drop (ai - depthBefore)).map (timelineEntryOf ctx)
      anchor := (sorted.get? ai).map (timelineEntryOf ctx)
      after := ((sorted.take (ai + 1 + depthAfter)).drop (ai + 1)).map (timelineEntryOf ctx) }

/-! ## Concrete fixtures used by witnesses and counterexamples -/

/-- Trivial dependency bundle: an extractor finding nothing, enrichment
returning the user concepts, a length token counter, no embedding provider. -/
def trivDeps : Deps :=
  { extractEntities := fun _ => { files := [], identifiers := [], hasCausalLanguage := false }
    enrichConcepts := fun user _ => user
    countTextTokens := fun s => s.data.length
    embed := fun _ => none }

/-- Trivial search context: identity ranking, zero dates, identity time
formatting, empty icons. -/
def trivCtx : SearchCtx :=
  { rank := fun _ l => l
    dateVal := fun _ => 0
    fmtTime := fun s => s
    iconOf := fun _ => "" }

/-- Blank index document fixture with a given observation id and project id. -/
def mkDoc (oid : Nat) (pid : String) : MemorixDocument :=
  { id := s!"obs-{oid}"
    observationId := oid
    entityName := ""
    type := ""
    title := ""
    narrative := ""
    facts := ""
    filesModified := ""
    concepts := ""
    tokens := 0
    createdAt := ""
    projectId := pid
    accessCount := 0
    lastAccessedAt := ""
    embedding := none }

/-- Blank entry fixture with a given id and token count. -/
def mkEntry (i tok : Nat) : IndexEntry :=
  { id := i, time := "", type := "", icon := "", title := "", tokens := tok,
    matchedFields := none }

/-- Blank observation fixture. -/
def mkObs (i : Nat) (pid : String) (tk : Option String) (created : String) : Observation :=
  { id := i
    entityName := "auth"
    type := "decision"
    title := "JWT refresh"
    narrative := "use refresh tokens"
    facts := []
    filesModified := []
    concepts := []
    tokens := 0
    createdAt := created
    updatedAt := none
    projectId := pid
    hasCausalLanguage := false
    topicKey := tk
    revisionCount := 1
    sessionId := none }

/-- Lock environment fixture: a stale lock at the first attempt, free after. -/
def envC4 : Nat → LockObs :=
  fun i => if i == 0 then LockObs.held 20000 else LockObs.free

/-- Entry list fixture of scenario S5 of the specification. -/
def entriesC3 : List IndexEntry :=
  [mkEntry 1 30, mkEntry 2 40, mkEntry 3 35, mkEntry 4 50, mkEntry 5 20,
   mkEntry 6 25, mkEntry 7 60, mkEntry 8 10, mkEntry 9 45, mkEntry 10 30]

/-- Store input fixture of scenario S1 of the specification. -/
def inputC2 : StoreInput :=
  { entityName := "auth"
    type := "decision"
    title := "JWT refresh"
    narrative := "15-minute expiry"
    facts := []
    filesModified := []
    concepts := []
    projectId := "acme/app"
    topicKey := some "decision/jwt-refresh"
    sessionId := none }

/-- Existing observation fixture matched by the topic key of inputC2. -/
def obsC2 : Observation := mkObs 7 "acme/app" (some "decision/jwt-refresh") "T1"

/-- Environment fixture holding obsC2 in memory, in the index and on disk. -/
def envC2 : StoreEnv :=
  { observations := [obsC2]
    nextId := 8
    index := [mkDoc 7 "acme/app"]
    diskObs := [obsC2]
    diskNextId := 8 }

/-- Store input fixtures of the two processes of the cross-process scenario. -/
def inputC1A : StoreInput :=
  { entityName := "auth"
    type := "decision"
    title := "first record"
    narrative := "from process A"
    facts := []
    filesModified := []
    concepts := []
    projectId := "acme/app"
    topicKey := none
    sessionId := none }

/-- Second store input of the cross-process scenario. -/
def inputC1B : StoreInput :=
  { inputC1A with title := "second record", narrative := "from process B" }

/-- Initial per-process state of the cross-process scenario: both processes
initialized from the same empty data directory. -/
def procInit : Proc :=
  { observations := [], nextId := 1, index := [], pending := none }

/-- Initial shared durable state of the cross-process scenario. -/
def diskInit : SharedDisk :=
  { diskObs := [], diskNextId := 1 }

/-- Observation fixtures of the migration witness. -/
def memC6 : List Observation :=
  [mkObs 1 "placeholder/app" none "T1", mkObs 2 "local/app" none "T2",
   mkObs 3 "acme/app" none "T3"]

/-- Registry fixture of the search witness: one group with two aliases. -/
def regC5 : AliasRegistry :=
  { groups := [{ canonical := "acme/app"
                 aliases := ["acme/app", "local/app"]
                 rootPaths := []
                 gitRemote := none }] }

/-- Index fixture of the search witness and of the access-accounting
counterexample: one document inside the alias set, one outside. -/
def indexC5 : List MemorixDocument :=
  [mkDoc 1 "acme/app", mkDoc 2 "other/proj"]

/-- Search options fixture with a project filter resolving to two aliases. -/
def optsC5 : SearchOptions :=
  { query := none
    projectId := some "local/app"
    type := none
    since := none
    untilDate := none
    limit := some 10
    maxTokens := none }

/-- Project detections of the registry counterexample: a local project at
one root, a git project at another root, then the git id detected at the
first root. -/
def piC7a : ProjectInfo := { id := "local/app", rootPath := "/r1", gitRemote := none }

/-- Second detection of the registry counterexample. -/
def piC7b : ProjectInfo := { id := "acme/app", rootPath := "/r2", gitRemote := none }

/-- Third detection of the registry counterexample. -/
def piC7c : ProjectInfo := { id := "acme/app", rootPath := "/r1", gitRemote := none }

/-- Observation fixture of the timeline witness. -/
def obsC10 : Observation := mkObs 1 "acme/app" none "T1"

/-! ## Helper lemmas -/

/-- Membership through stable insertion. -/
theorem insertBefore_mem {lt : α → α → Bool} {x a : α} {l : List α} :
    x ∈ insertBefore lt a l ↔ x = a ∨ x ∈ l := by
  induction l with
  | nil => simp [insertBefore]
  | cons y ys ih =>
    by_cases h : lt a y
    · simp [insertBefore, h]
    · simp [insertBefore, h, ih]
      tauto

/-- Membership through the stable sort: an element of the fold state is an
element of the accumulator or of the remaining input. -/
theorem stableSortBy_foldl_mem {lt : α → α → Bool} {x : α} :
    ∀ (l acc : List α),
      (x ∈ l.foldl (fun acc a => insertBefore lt a acc) acc ↔ x ∈ acc ∨ x ∈ l) := by
  intro l
  induction l with
  | nil => simp
  | cons y ys ih =>
    intro acc
    simp only [List.foldl_cons, ih, insertBefore_mem, List.mem_cons]
    tauto

/-- Membership is preserved by the stable sort. -/
theorem stableSortBy_mem {lt : α → α → Bool} {x : α} {l : List α} :
    x ∈ stableSortBy lt l ↔ x ∈ l := by
  unfold stableSortBy
  rw [stableSortBy_foldl_mem]
  simp

/-! ## C4 — lock acquisition -/

/-- Helper: when every attempt up to the end of the fuel observes a fresh
held lock, the loop runs out and the final forced attempt fails, so the
result is the lock timeout. -/
theorem acquireGo_all_fresh_held (env : Nat → LockObs) :
    ∀ (fuel i s : Nat),
      (∀ j, j ≤ i + fuel → ∃ a, env j = .held a ∧ a ≤ LOCK_STALE_MS) →
      acquireGo env fuel i s = .lockTimeout := by
  intro fuel
  induction fuel with
  | zero =>
    intro i s h
    obtain ⟨a, ha, _⟩ := h i (by omega)
    simp [acquireGo, ha]
  | succ fuel ih =>
    intro i s h
    obtain ⟨a, ha, hle⟩ := h i (by omega)
    have hnot : ¬ LOCK_STALE_MS < a := by omega
    simp only [acquireGo, ha, if_neg hnot]
    exact ih (i + 1) (s + 1) (fun j hj => h j (by omega))

/-- C4: acquireLock creates the lock with exclusive-create semantics when it
is free; a fresh held lock costs one 50 ms wait and one attempt; a lock
whose age exceeds the 10 s staleness bound is unlinked and, when nobody
recreates it, acquisition succeeds at the very next attempt with no
additional wait; when every attempt including the final forced one sees a
fresh held lock the result is the lock timeout; an error other than EEXIST
propagates untouched from any attempt of the loop. -/
theorem acquireLock_c4_spec (env : Nat → LockObs) :
    (∀ fuel i s, env i = .free → 1 ≤ fuel → acquireGo env fuel i s = .acquired i s) ∧
    (∀ fuel i s a, env i = .held a → a ≤ LOCK_STALE_MS → 1 ≤ fuel →
      acquireGo env fuel i s = acquireGo env (fuel - 1) (i + 1) (s + 1)) ∧
    (∀ fuel i s a, env i = .held a → LOCK_STALE_MS < a → env (i + 1) = .free → 2 ≤ fuel →
      acquireGo env fuel i s = .acquired (i + 1) s) ∧
    ((∀ j, j ≤ MAX_RETRIES → ∃ a, env j = .held a ∧ a ≤ LOCK_STALE_MS) →
      acquireLock env = .lockTimeout) ∧
    (∀ fuel i s c, env i = .ioErr c → 1 ≤ fuel → acquireGo env fuel i s = .ioError c) := by
  refine ⟨?_, ?_, ?_, ?_, ?_⟩
  · intro fuel i s h hf
    obtain ⟨f, rfl⟩ : ∃ f, fuel = f + 1 := ⟨fuel - 1, by omega⟩
    simp [acquireGo, h]
  · intro fuel i s a h hle hf
    obtain ⟨f, rfl⟩ : ∃ f, fuel = f + 1 := ⟨fuel - 1, by omega⟩
    have hnot : ¬ LOCK_STALE_MS < a := by omega
    simp [acquireGo, h, if_neg hnot]
  · intro fuel i s a h hstale hfree hf
    obtain ⟨f, rfl⟩ : ∃ f, fuel = f + 2 := ⟨fuel - 2, by omega⟩
    simp [acquireGo, h, if_pos hstale, hfree]
  · intro h
    exact acquireGo_all_fresh_held env MAX_RETRIES 0 0 (fun j hj => h j (by omega))
  · intro fuel i s c h hf
    obtain ⟨f, rfl⟩ : ∃ f, fuel = f + 1 := ⟨fuel - 1, by omega⟩
    simp [acquireGo, h]

/-- C4 witness: with a 20 s old lock at the first attempt and a free path
afterwards, acquisition succeeds at attempt one with no 50 ms wait taken. -/
theorem acquireLock_c4_witness :
    LOCK_STALE_MS < 20000 ∧ acquireGo envC4 60 0 0 = AcquireResult.acquired 1 0 :=
  ⟨by decide,
   (acquireLock_c4_spec envC4).2.2.1 60 0 0 20000 rfl (by decide) rfl (by decide)⟩

/-! ## C8 — durable file loaders -/

/-- C8 counterexample: counter.json and observations.archived.json that
exist but fail to parse are silently replaced by their empty values (nextId
one, the empty list), exactly as a missing file is, instead of raising an
error to the caller. -/
theorem loaders_c8_counterexample :
    loadIdCounter ReadResult.parseError = 1 ∧
    loadIdCounter ReadResult.parseError = loadIdCounter ReadResult.enoent ∧
    loadArchivedObservations ReadResult.parseError = [] ∧
    loadArchivedObservations ReadResult.parseError
      = loadArchivedObservations ReadResult.enoent :=
  ⟨rfl, rfl, rfl, rfl⟩

/-- C8 amended: a missing durable file yields the empty value for all four
loaders; a parse failure raises for observations.json and sessions.json but
is silently replaced by the empty value for counter.json and
observations.archived.json; a parsed payload is returned as stored. -/
theorem loaders_c8_amended :
    (loadObservationsJson ReadResult.enoent = Except.ok []
      ∧ loadObservationsJson ReadResult.parseError = Except.error ()
      ∧ ∀ v, loadObservationsJson (ReadResult.ok v) = Except.ok v) ∧
    (loadSessionsJson ReadResult.enoent = Except.ok []
      ∧ loadSessionsJson ReadResult.parseError = Except.error ()
      ∧ ∀ v, loadSessionsJson (ReadResult.ok v) = Except.ok v) ∧
    (loadIdCounter ReadResult.enoent = 1
      ∧ loadIdCounter ReadResult.parseError = 1
      ∧ ∀ n, loadIdCounter (ReadResult.ok (some n)) = n) ∧
    (loadArchivedObservations ReadResult.enoent = []
      ∧ loadArchivedObservations ReadResult.parseError = []
      ∧ ∀ v, loadArchivedObservations (ReadResult.ok (some v)) = v) :=
  ⟨⟨rfl, rfl, fun _ => rfl⟩, ⟨rfl, rfl, fun _ => rfl⟩,
   ⟨rfl, rfl, fun _ => rfl⟩, ⟨rfl, rfl, fun _ => rfl⟩⟩

/-! ## C3 — token budget -/

/-- Sum of tokens over a cons. -/
theorem sumTokens_cons (e : IndexEntry) (l : List IndexEntry) :
    sumTokens (e :: l) = e.tokens + sumTokens l := by
  simp [sumTokens]

/-- Helper: once the running sum exceeds the budget, the loop with a
nonempty accumulator takes nothing further. -/
theorem applyTokenBudgetGo_over (m : Nat) :
    ∀ (l : List IndexEntry) (used : Nat), m < used →
      applyTokenBudgetGo m l used true = [] := by
  intro l used h
  cases l with
  | nil => rfl
  | cons e rest =>
    have hov : m < used + e.tokens := by omega
    simp [applyTokenBudgetGo, hov]

/-- Helper: with a nonempty accumulator and a running sum within the budget,
the loop returns the longest further prefix that keeps the sum within the
budget. -/
theorem applyTokenBudgetGo_spec (m : Nat) :
    ∀ (l : List IndexEntry) (used : Nat), used ≤ m →
      (applyTokenBudgetGo m l used true
          = l.take ((applyTokenBudgetGo m l used true).length)) ∧
      used + sumTokens (applyTokenBudgetGo m l used true) ≤ m ∧
      (∀ n, n ≤ l.length → used + sumTokens (l.take n) ≤ m →
        n ≤ (applyTokenBudgetGo m l used true).length) := by
  intro l
  induction l with
  | nil =>
    intro used h
    refine ⟨rfl, by simpa [sumTokens] using h, ?_⟩
    intro n hn _
    have hn0 : n = 0 := by simpa using hn
    simp [hn0]
  | cons e rest ih =>
    intro used h
    by_cases hov : m < used + e.tokens
    · have hres : applyTokenBudgetGo m (e :: rest) used true = [] := by
        simp [applyTokenBudgetGo, hov]
      refine ⟨by simp [hres], by simpa [hres, sumTokens] using h, ?_⟩
      intro n hn hsum
      match n with
      | 0 => simp [hres]
      | k + 1 =>
        exfalso
        have : sumTokens ((e :: rest).take (k + 1)) = e.tokens + sumTokens (rest.take k) := by
          simp [sumTokens_cons]
        omega
    · have hres : applyTokenBudgetGo m (e :: rest) used true
          = e :: applyTokenBudgetGo m rest (used + e.tokens) true := by
        simp [applyTokenBudgetGo, hov]
      have hle : used + e.tokens ≤ m := by omega
      obtain ⟨hpre, hbud, hopt⟩ := ih (used + e.tokens) hle
      refine ⟨?_, ?_, ?_⟩
      · rw [hres]
        simp only [List.length_cons, List.take_succ_cons]
        rw [← hpre]
      · rw [hres, sumTokens_cons]
        omega
      · intro n hn hsum
        match n with
        | 0 => simp
        | k + 1 =>
          have hk : k ≤ rest.length := by simpa using hn
          have : sumTokens ((e :: rest).take (k + 1)) = e.tokens + sumTokens (rest.take k) := by
            simp [sumTokens_cons]
          have hk2 : k ≤ (applyTokenBudgetGo m rest (used + e.tokens) true).length :=
            hopt k hk (by omega)
          rw [hres]
          simpa using hk2

/-- C3: for a positive token budget, the returned entries are a prefix of
the post-filter entry list; their token sum stays within the budget unless
exactly one entry is returned (a first entry that alone exceeds the budget
is still returned by itself); and no longer prefix stays within the budget,
so the result is the longest budget-respecting prefix. -/
theorem applyTokenBudget_c3_spec (entries : List IndexEntry) (maxTokens : Nat)
    (_hpos : 0 < maxTokens) :
    (sumTokens (applyTokenBudget entries maxTokens) ≤ maxTokens ∨
      (applyTokenBudget entries maxTokens).length = 1) ∧
    applyTokenBudget entries maxTokens
      = entries.take ((applyTokenBudget entries maxTokens).length) ∧
    (∀ n, n ≤ entries.length → sumTokens (entries.take n) ≤ maxTokens →
      n ≤ (applyTokenBudget entries maxTokens).length) := by
  cases entries with
  | nil =>
    refine ⟨Or.inl (by simp [applyTokenBudget, applyTokenBudgetGo, sumTokens]), rfl, ?_⟩
    intro n hn _
    simpa [applyTokenBudget, applyTokenBudgetGo] using hn
  | cons e rest =>
    have hstep : applyTokenBudget (e :: rest) maxTokens
        = e :: applyTokenBudgetGo maxTokens rest e.tokens true := by
      simp [applyTokenBudget, applyTokenBudgetGo]
    by_cases hov : maxTokens < e.tokens
    · have hnil : applyTokenBudgetGo maxTokens rest e.tokens true = [] :=
        applyTokenBudgetGo_over maxTokens rest e.tokens hov
      refine ⟨Or.inr (by simp [hstep, hnil]), by simp [hstep, hnil], ?_⟩
      intro n hn hsum
      match n with
      | 0 => simp
      | k + 1 =>
        exfalso
        have : sumTokens ((e :: rest).take (k + 1)) = e.tokens + sumTokens (rest.take k) := by
          simp [sumTokens_cons]
        omega
    · have hle : e.tokens ≤ maxTokens := by omega
      obtain ⟨hpre, hbud, hopt⟩ := applyTokenBudgetGo_spec maxTokens rest e.tokens hle
      refine ⟨Or.inl ?_, ?_, ?_⟩
      · rw [hstep, sumTokens_cons]
        omega
      · rw [hstep]
        simp only [List.length_cons, List.take_succ_cons]
        rw [← hpre]
      · intro n hn hsum
        match n with
        | 0 => simp
        | k + 1 =>
          have hk : k ≤ rest.length := by simpa using hn
          have : sumTokens ((e :: rest).take (k + 1)) = e.tokens + sumTokens (rest.take k) := by
            simp [sumTokens_cons]
          have hk2 : k ≤ (applyTokenBudgetGo maxTokens rest e.tokens true).length :=
            hopt k hk (by omega)
          rw [hstep]
          simpa using hk2

/-- C3 witness: on the ten entries of scenario S5 with budget 120 the claim
holds; in particular the returned entries are the longest prefix within the
budget. -/
theorem applyTokenBudget_c3_witness :
    (0 < 120 ∧
      ((sumTokens (applyTokenBudget entriesC3 120) ≤ 120 ∨
        (applyTokenBudget entriesC3 120).length = 1) ∧
      applyTokenBudget entriesC3 120
        = entriesC3.take ((applyTokenBudget entriesC3 120).length) ∧
      (∀ n, n ≤ entriesC3.length → sumTokens (entriesC3.take n) ≤ 120 →
        n ≤ (applyTokenBudget entriesC3 120).length))) ∧
    applyTokenBudget entriesC3 120 = [mkEntry 1 30, mkEntry 2 40, mkEntry 3 35] :=
  ⟨⟨by decide, applyTokenBudget_c3_spec entriesC3 120 (by decide)⟩, by decide⟩

/-! ## C10 — timeline with a missing anchor -/

/-- C10: when no stored observation has the anchor id, getTimeline returns
the empty timeline value instead of raising an error; the embedding is a
pure function of the observation copy that getAllObservations hands it, so
the stored list is untouched. -/
theorem getTimeline_c10_missing_anchor (ctx : SearchCtx) (observations : List Observation)
    (anchorId depthBefore depthAfter : Nat)
    (h : ∀ o ∈ observations, o.id ≠ anchorId) :
    getTimeline ctx observations anchorId depthBefore depthAfter
      = { before := [], anchor := none, after := [] } := by
  have hnone :
      (stableSortBy (fun a b => strLexLt a.createdAt.data b.createdAt.data)
          observations).findIdx? (fun o => o.id == anchorId) = none := by
    rw [List.findIdx?_eq_none_iff]
    intro o ho
    have hmem : o ∈ observations := stableSortBy_mem.mp ho
    simpa using h o hmem
  simp [getTimeline, hnone]

/-- C10 witness: on a store holding one observation with id 1, a timeline
query anchored at the absent id 2 returns the empty timeline. -/
theorem getTimeline_c10_witness :
    getTimeline trivCtx [obsC10] 2 3 3 = { before := [], anchor := none, after := [] } :=
  getTimeline_c10_missing_anchor trivCtx [obsC10] 2 3 3 (by decide)

/-! ## C6 — project id migration -/

/-- C6: after migrateProjectIds no record carries a non-canonical member of
the alias list; every record whose project id was such a member is rewritten
to the canonical id with every other field unchanged while all other records
are kept as they were; the length is preserved; the returned count is the
number of rewritten records; the list is persisted at most once, the
persisted contents are exactly the rewritten list when anything changed, and
the disk is untouched otherwise. -/
theorem migrateProjectIds_c6_spec (mem disk : List Observation) (aliasIds : List String)
    (canonicalId : String) :
    ((migrateProjectIds mem disk aliasIds canonicalId).1.length = mem.length) ∧
    (∀ o ∈ (migrateProjectIds mem disk aliasIds canonicalId).1,
      ¬(o.projectId ∈ aliasIds ∧ o.projectId ≠ canonicalId)) ∧
    (∀ o ∈ mem, o.projectId ∈ aliasIds → o.projectId ≠ canonicalId →
      { o with projectId := canonicalId } ∈ (migrateProjectIds mem disk aliasIds canonicalId).1) ∧
    (∀ o ∈ mem, ¬(o.projectId ∈ aliasIds ∧ o.projectId ≠ canonicalId) →
      o ∈ (migrateProjectIds mem disk aliasIds canonicalId).1) ∧
    ((migrateProjectIds mem disk aliasIds canonicalId).2.2.1
      = (mem.filter (fun o => o.projectId ∈ aliasIds ∧ o.projectId ≠ canonicalId)).length) ∧
    ((migrateProjectIds mem disk aliasIds canonicalId).2.2.2 ≤ 1) ∧
    (0 < (migrateProjectIds mem disk aliasIds canonicalId).2.2.1 →
      (migrateProjectIds mem disk aliasIds canonicalId).2.1
        = (migrateProjectIds mem disk aliasIds canonicalId).1) ∧
    ((migrateProjectIds mem disk aliasIds canonicalId).2.2.1 = 0 →
      (migrateProjectIds mem disk aliasIds canonicalId).2.1 = disk) := by
  classical
  set nc := aliasIds.filter (fun id => id != canonicalId) with hnc
  have hAm : ∀ p : String, p ∈ nc ↔ (p ∈ aliasIds ∧ p ≠ canonicalId) := by
    intro p
    rw [hnc]
    simp [List.mem_filter]
  set f : Observation → Observation := fun o =>
    if nc.contains o.projectId then { o with projectId := canonicalId } else o with hf
  set cnt := (mem.filter (fun o => nc.contains o.projectId)).length with hcnt
  have hdef : migrateProjectIds mem disk aliasIds canonicalId
      = if nc.isEmpty then (mem, disk, 0, 0)
        else if 0 < cnt then (mem.map f, mem.map f, cnt, 1)
        else (mem.map f, disk, cnt, 0) := rfl
  have hfiltereq : mem.filter (fun o => nc.contains o.projectId)
      = mem.filter (fun o => decide (o.projectId ∈ aliasIds ∧ o.projectId ≠ canonicalId)) := by
    apply List.filter_congr
    intro o _
    by_cases ho : o.projectId ∈ aliasIds ∧ o.projectId ≠ canonicalId
    · have hcm : o.projectId ∈ nc := (hAm o.projectId).mpr ho
      simp [hcm, ho]
    · have hcm : o.projectId ∉ nc := fun hp => ho ((hAm o.projectId).mp hp)
      simp [hcm, ho]
  by_cases hE : nc.isEmpty
  · have hnil : nc = [] := List.isEmpty_iff.mp hE
    have hno : ∀ p : String, ¬(p ∈ aliasIds ∧ p ≠ canonicalId) := by
      intro p hp
      have hin : p ∈ nc := (hAm p).mpr hp
      rw [hnil] at hin
      simp at hin
    rw [hdef, if_pos hE]
    refine ⟨rfl, ?_, ?_, ?_, ?_, by simp, ?_, fun _ => rfl⟩
    · intro o _
      exact hno o.projectId
    · intro o _ h1 h2
      exact absurd ⟨h1, h2⟩ (hno o.projectId)
    · intro o ho _
      exact ho
    · symm
      rw [List.length_eq_zero, List.filter_eq_nil_iff]
      intro o _
      simpa using hno o.projectId
    · intro h
      simp at h
  · have hmap : ∀ o ∈ mem.map f, ¬(o.projectId ∈ aliasIds ∧ o.projectId ≠ canonicalId) := by
      intro o ho
      obtain ⟨o0, _, rfl⟩ := List.mem_map.mp ho
      by_cases hcm : o0.projectId ∈ nc
      · have hpid : (f o0).projectId = canonicalId := by
          rw [hf]
          simp [hcm]
        intro hcontra
        exact hcontra.2 hpid
      · have hfo : f o0 = o0 := by
          rw [hf]
          simp [hcm]
        rw [hfo]
        intro hcontra
        exact hcm ((hAm o0.projectId).mpr hcontra)
    have hrewr : ∀ o ∈ mem, o.projectId ∈ aliasIds → o.projectId ≠ canonicalId →
        { o with projectId := canonicalId } ∈ mem.map f := by
      intro o ho h1 h2
      have hcm : o.projectId ∈ nc := (hAm o.projectId).mpr ⟨h1, h2⟩
      refine List.mem_map.mpr ⟨o, ho, ?_⟩
      rw [hf]
      simp [hcm]
    have hsame : ∀ o ∈ mem, ¬(o.projectId ∈ aliasIds ∧ o.projectId ≠ canonicalId) →
        o ∈ mem.map f := by
      intro o ho hno
      have hcm : o.projectId ∉ nc := fun hp => hno ((hAm o.projectId).mp hp)
      refine List.mem_map.mpr ⟨o, ho, ?_⟩
      rw [hf]
      simp [hcm]
    by_cases hc0 : 0 < cnt
    · rw [hdef, if_neg hE, if_pos hc0]
      dsimp only
      refine ⟨by simp, hmap, hrewr, hsame, ?_, Nat.le_refl 1, fun _ => rfl, ?_⟩
      · rw [← hfiltereq]
      · intro h0
        omega
    · rw [hdef, if_neg hE, if_neg hc0]
      dsimp only
      refine ⟨by simp, hmap, hrewr, hsame, ?_, Nat.zero_le 1, ?_, fun _ => rfl⟩
      · rw [← hfiltereq]
      · intro h
        exact absurd h hc0

/-- C6 witness: a store with records under a placeholder id, a local id and
the canonical id, migrated with the alias list of all three to the canonical
id, satisfies the migration contract. -/
theorem migrateProjectIds_c6_witness :
    (migrateProjectIds memC6 [] ["placeholder/app", "local/app", "acme/app"] "acme/app").1
      = [mkObs 1 "acme/app" none "T1", mkObs 2 "acme/app" none "T2",
         mkObs 3 "acme/app" none "T3"] ∧
    (migrateProjectIds memC6 [] ["placeholder/app", "local/app", "acme/app"] "acme/app").2.2.1
      = 2 ∧
    (∀ o ∈ (migrateProjectIds memC6 [] ["placeholder/app", "local/app", "acme/app"]
        "acme/app").1,
      ¬(o.projectId ∈ ["placeholder/app", "local/app", "acme/app"]
        ∧ o.projectId ≠ "acme/app")) := by
  refine ⟨by decide, by decide, ?_⟩
  exact (migrateProjectIds_c6_spec memC6 [] ["placeholder/app", "local/app", "acme/app"]
    "acme/app").2.1

/-! ## C2 — topic key upsert -/

/-- C2: when the input carries a truthy topic key and a stored observation
with the same topic key and project id exists, storeObservation dispatches
to the upsert: the call is reported as an upsert (not an error), no new id
is allocated, the returned record keeps the id and createdAt of the existing
one while its content fields are replaced from the enriched input, the
revision count grows by one and updatedAt becomes the current time; the old
index document is removed and the updated one inserted, the updated record
is persisted to the observations file under the project lock, and the
counter file is untouched. -/
theorem storeObservation_c2_upsert (D : Deps) (env : StoreEnv) (input : StoreInput)
    (now : String) (existing : Observation)
    (htk : strTruthy input.topicKey = true)
    (hfind : env.observations.find?
        (fun o => o.topicKey == input.topicKey && o.projectId == input.projectId)
      = some existing) :
    ((storeObservation D env input now).1.2 = true) ∧
    ((storeObservation D env input now).2.nextId = env.nextId) ∧
    ((storeObservation D env input now).1.1.id = existing.id) ∧
    ((storeObservation D env input now).1.1.createdAt = existing.createdAt) ∧
    ((storeObservation D env input now).1.1.entityName = input.entityName) ∧
    ((storeObservation D env input now).1.1.type = input.type) ∧
    ((storeObservation D env input now).1.1.title = input.title) ∧
    ((storeObservation D env input now).1.1.narrative = input.narrative) ∧
    ((storeObservation D env input now).1.1.facts = input.facts) ∧
    ((storeObservation D env input now).1.1.filesModified = enrichedFilesOf D input) ∧
    ((storeObservation D env input now).1.1.concepts = enrichedConceptsOf D input) ∧
    ((storeObservation D env input now).1.1.tokens = tokensOf D input) ∧
    ((storeObservation D env input now).1.1.revisionCount = existing.revisionCount + 1) ∧
    ((storeObservation D env input now).1.1.updatedAt = some now) ∧
    ((storeObservation D env input now).2.index
      = (env.index.filter (fun d => d.id != s!"obs-{existing.id}"))
        ++ [docOf D input existing.id existing.createdAt existing.projectId]) ∧
    ((storeObservation D env input now).1.1 ∈ (storeObservation D env input now).2.diskObs) ∧
    ((storeObservation D env input now).2.diskNextId = env.diskNextId) := by
  have heq : storeObservation D env input now
      = (((upsertObservation D env existing input now).1, true),
         (upsertObservation D env existing input now).2) := by
    simp only [storeObservation, htk, if_true, hfind]
  rw [heq]
  have hup1 : (upsertObservation D env existing input now).1
      = upsertFields D input now existing := rfl
  refine ⟨rfl, rfl, ?_, ?_, ?_, ?_, ?_, ?_, ?_, ?_, ?_, ?_, ?_, ?_, rfl, ?_, rfl⟩
  · rw [hup1]
    rfl
  · rw [hup1]
    rfl
  · rw [hup1]
    rfl
  · rw [hup1]
    rfl
  · rw [hup1]
    rfl
  · rw [hup1]
    rfl
  · rw [hup1]
    rfl
  · rw [hup1]
    rfl
  · rw [hup1]
    rfl
  · rw [hup1]
    rfl
  · rw [hup1]
    rfl
  · rw [hup1]
    rfl
  · rw [hup1]
    show upsertFields D input now existing ∈ (upsertObservation D env existing input now).2.diskObs
    have hdisk : (upsertObservation D env existing input now).2.diskObs
        = match env.diskObs.findIdx? (fun o => o.id == existing.id) with
          | some j => env.diskObs.set j (upsertFields D input now existing)
          | none => env.diskObs ++ [upsertFields D input now existing] := rfl
    rw [hdisk]
    cases hidx : env.diskObs.findIdx? (fun o => o.id == existing.id) with
    | none => simp
    | some j =>
      have hj : j < env.diskObs.length :=
        (List.findIdx?_eq_some_iff_findIdx_eq.mp hidx).1
      exact List.mem_set env.diskObs j hj (upsertFields D input now existing)

/-- C2 witness: storing the scenario S1 input again over the stored record
with the same topic key updates in place: upserted, id 7 and createdAt kept,
narrative replaced, revision count 2, updatedAt set, no id allocated, index
entry replaced, record persisted. -/
theorem storeObservation_c2_upsert_witness :
    ((storeObservation trivDeps envC2 inputC2 "T2").1.2 = true) ∧
    ((storeObservation trivDeps envC2 inputC2 "T2").2.nextId = envC2.nextId) ∧
    ((storeObservation trivDeps envC2 inputC2 "T2").1.1.id = obsC2.id) ∧
    ((storeObservation trivDeps envC2 inputC2 "T2").1.1.createdAt = obsC2.createdAt) ∧
    ((storeObservation trivDeps envC2 inputC2 "T2").1.1.entityName = inputC2.entityName) ∧
    ((storeObservation trivDeps envC2 inputC2 "T2").1.1.type = inputC2.type) ∧
    ((storeObservation trivDeps envC2 inputC2 "T2").1.1.title = inputC2.title) ∧
    ((storeObservation trivDeps envC2 inputC2 "T2").1.1.narrative = inputC2.narrative) ∧
    ((storeObservation trivDeps envC2 inputC2 "T2").1.1.facts = inputC2.facts) ∧
    ((storeObservation trivDeps envC2 inputC2 "T2").1.1.filesModified
      = enrichedFilesOf trivDeps inputC2) ∧
    ((storeObservation trivDeps envC2 inputC2 "T2").1.1.concepts
      = enrichedConceptsOf trivDeps inputC2) ∧
    ((storeObservation trivDeps envC2 inputC2 "T2").1.1.tokens = tokensOf trivDeps inputC2) ∧
    ((storeObservation trivDeps envC2 inputC2 "T2").1.1.revisionCount
      = obsC2.revisionCount + 1) ∧
    ((storeObservation trivDeps envC2 inputC2 "T2").1.1.updatedAt = some "T2") ∧
    ((storeObservation trivDeps envC2 inputC2 "T2").2.index
      = (envC2.index.filter (fun d => d.id != s!"obs-{obsC2.id}"))
        ++ [docOf trivDeps inputC2 obsC2.id obsC2.createdAt obsC2.projectId]) ∧
    ((storeObservation trivDeps envC2 inputC2 "T2").1.1
      ∈ (storeObservation trivDeps envC2 inputC2 "T2").2.diskObs) ∧
    ((storeObservation trivDeps envC2 inputC2 "T2").2.diskNextId = envC2.diskNextId) :=
  storeObservation_c2_upsert trivDeps envC2 inputC2 "T2" obsC2 (by decide) (by decide)

/-! ## C1 — cross-process store atomicity -/

/-- C1: evaluation of the failing interleaving.  Two processes are both
initialized from the same empty data directory, so both in-process counters
start at 1.  Each process runs the synchronous first phase of
storeObservation (id allocation and local append) before either enters the
locked persist phase - a legal interleaving, because the id allocation is
not under the lock.  Both calls complete and both return an observation, but
both records carry id 1, and the merge-by-id inside the second locked
persist drops the record of process B: the disk ends with one record and
nextId 2 instead of the two records with ids 1 and 2 and nextId 3 that the
claim requires. -/
theorem storeObservation_c1_lost_update :
    ((storeLocalStep trivDeps inputC1A "t1" procInit).pending
      = some (freshObservationOf trivDeps inputC1A 1 "t1")) ∧
    ((storeLocalStep trivDeps inputC1B "t2" procInit).pending
      = some (freshObservationOf trivDeps inputC1B 1 "t2")) ∧
    ((freshObservationOf trivDeps inputC1A 1 "t1").id = 1) ∧
    ((freshObservationOf trivDeps inputC1B 1 "t2").id = 1) ∧
    ((storePersistStep (storeLocalStep trivDeps inputC1B "t2" procInit)
        (storePersistStep (storeLocalStep trivDeps inputC1A "t1" procInit) diskInit).2).1.pending
      = none) ∧
    ((storePersistStep (storeLocalStep trivDeps inputC1B "t2" procInit)
        (storePersistStep (storeLocalStep trivDeps inputC1A "t1" procInit) diskInit).2).2.diskObs
      = [freshObservationOf trivDeps inputC1A 1 "t1"]) ∧
    ((storePersistStep (storeLocalStep trivDeps inputC1B "t2" procInit)
        (storePersistStep (storeLocalStep trivDeps inputC1A "t1" procInit) diskInit).2).2.diskObs.length
      = 1) ∧
    ((storePersistStep (storeLocalStep trivDeps inputC1B "t2" procInit)
        (storePersistStep (storeLocalStep trivDeps inputC1A "t1" procInit) diskInit).2).2.diskNextId
      = 2) ∧
    (freshObservationOf trivDeps inputC1B 1 "t2"
      ∉ (storePersistStep (storeLocalStep trivDeps inputC1B "t2" procInit)
          (storePersistStep (storeLocalStep trivDeps inputC1A "t1" procInit) diskInit).2).2.diskObs) := by
  decide

/-! ## C9 — access accounting of search hits -/

/-- Helper: the access update leaves the length of the index unchanged. -/
theorem recordAccessBatch_length (now : String) :
    ∀ (hits index : List MemorixDocument),
      (recordAccessBatch now index hits).length = index.length := by
  intro hits
  induction hits with
  | nil => intro index; rfl
  | cons h rest ih =>
    intro index
    have hstep : recordAccessBatch now index (h :: rest)
        = recordAccessBatch now
            (index.map (fun d => if d.id == h.id then bumpDoc now h else d)) rest := rfl
    rw [hstep, ih]
    simp

/-- Helper: pointwise value of the index after the access update.  The
document at position j becomes the last raw hit sharing its Orama id,
bumped, and stays untouched when no hit shares its id. -/
theorem recordAccessBatch_getElem (now : String) :
    ∀ (hits index : List MemorixDocument) (j : Nat) (d0 : MemorixDocument),
      index[j]? = some d0 →
      (recordAccessBatch now index hits)[j]? = some (lastBump now d0 hits) := by
  intro hits
  induction hits with
  | nil =>
    intro index j d0 hj
    simpa [recordAccessBatch, lastBump] using hj
  | cons h rest ih =>
    intro index j d0 hj
    have hstep : recordAccessBatch now index (h :: rest)
        = recordAccessBatch now
            (index.map (fun d => if d.id == h.id then bumpDoc now h else d)) rest := rfl
    have hmap : (index.map (fun d => if d.id == h.id then bumpDoc now h else d))[j]?
        = some (if d0.id == h.id then bumpDoc now h else d0) := by
      rw [List.getElem?_map, hj]
      rfl
    by_cases hid : (d0.id == h.id) = true
    · have hideq : d0.id = h.id := by simpa using hid
      have hmap2 : (index.map (fun d => if d.id == h.id then bumpDoc now h else d))[j]?
          = some (bumpDoc now h) := by
        rw [hmap, if_pos hid]
      have hrec := ih (index.map (fun d => if d.id == h.id then bumpDoc now h else d))
        j (bumpDoc now h) hmap2
      rw [hstep, hrec]
      have hlast : lastBump now d0 (h :: rest) = lastBump now (bumpDoc now h) rest := by
        show List.foldl (fun cur x => if d0.id == x.id then bumpDoc now x else cur)
            (if d0.id == h.id then bumpDoc now h else d0) rest
          = List.foldl (fun cur x => if (bumpDoc now h).id == x.id then bumpDoc now x else cur)
            (bumpDoc now h) rest
        rw [if_pos hid]
        have hbid : (bumpDoc now h).id = h.id := rfl
        congr 1
        funext cur x
        rw [hbid, hideq]
      rw [hlast]
    · have hidf : (d0.id == h.id) = false := by simpa using hid
      have hmap2 : (index.map (fun d => if d.id == h.id then bumpDoc now h else d))[j]?
          = some d0 := by
        rw [hmap, hidf]
        simp
      have hrec := ih (index.map (fun d => if d.id == h.id then bumpDoc now h else d))
        j d0 hmap2
      rw [hstep, hrec]
      have hlast : lastBump now d0 (h :: rest) = lastBump now d0 rest := by
        show List.foldl (fun cur x => if d0.id == x.id then bumpDoc now x else cur)
            (if d0.id == h.id then bumpDoc now h else d0) rest
          = lastBump now d0 rest
        rw [hidf]
        simp [lastBump]
      rw [hlast]

/-- C9 amended: the returned entries are exactly the entry pipeline computed
before the access update, so the caller is not blocked on it; the update
keeps the index length; the document at every position becomes the last raw
index-query hit with its Orama id, bumped, or stays untouched when no raw
hit shares its id - so the accounting covers every hit of the underlying
index query, including hits that the alias, temporal, limit and token-budget
post-filters remove from the returned list; and a bump changes exactly the
access count (by one) and the last-access time. -/
theorem searchObservations_c9_access (ctx : SearchCtx) (reg : AliasRegistry)
    (index : List MemorixDocument) (options : SearchOptions) (now : String) :
    ((searchObservations ctx reg index options now).1 = searchEntries ctx reg index options) ∧
    ((searchObservations ctx reg index options now).2.length = index.length) ∧
    (∀ (j : Nat) (d0 : MemorixDocument), index[j]? = some d0 →
      (searchObservations ctx reg index options now).2[j]?
        = some (lastBump now d0 (searchRawHits ctx reg index options))) ∧
    (∀ h : MemorixDocument, (bumpDoc now h).accessCount = h.accessCount + 1
      ∧ (bumpDoc now h).lastAccessedAt = now
      ∧ { bumpDoc now h with accessCount := h.accessCount, lastAccessedAt := h.lastAccessedAt } = h) ∧
    (∀ (d0 : MemorixDocument) (hits : List MemorixDocument),
      (∀ h ∈ hits, (d0.id == h.id) = false) → lastBump now d0 hits = d0) := by
  refine ⟨rfl, recordAccessBatch_length now _ index, ?_, ?_, ?_⟩
  · intro j d0 hj
    exact recordAccessBatch_getElem now _ index j d0 hj
  · intro h
    exact ⟨rfl, rfl, rfl⟩
  · intro d0 hits hno
    induction hits with
    | nil => rfl
    | cons h rest ih =>
      have hstep : lastBump now d0 (h :: rest)
          = List.foldl (fun cur x => if d0.id == x.id then bumpDoc now x else cur)
              (if d0.id == h.id then bumpDoc now h else d0) rest := rfl
      rw [hstep, hno h (List.mem_cons_self h rest)]
      simp only [Bool.false_eq_true, if_false]
      exact ih (fun x hx => hno x (List.mem_cons_of_mem h hx))

/-- C9 witness: the access contract instantiated on a concrete search whose
alias post-filter drops one raw hit. -/
theorem searchObservations_c9_access_witness :
    ((searchObservations trivCtx regC5 indexC5 optsC5 "T").1
      = searchEntries trivCtx regC5 indexC5 optsC5) ∧
    ((searchObservations trivCtx regC5 indexC5 optsC5 "T").2.length = indexC5.length) ∧
    (∀ (j : Nat) (d0 : MemorixDocument), indexC5[j]? = some d0 →
      (searchObservations trivCtx regC5 indexC5 optsC5 "T").2[j]?
        = some (lastBump "T" d0 (searchRawHits trivCtx regC5 indexC5 optsC5))) ∧
    (∀ h : MemorixDocument, (bumpDoc "T" h).accessCount = h.accessCount + 1
      ∧ (bumpDoc "T" h).lastAccessedAt = "T"
      ∧ { bumpDoc "T" h with accessCount := h.accessCount, lastAccessedAt := h.lastAccessedAt } = h) ∧
    (∀ (d0 : MemorixDocument) (hits : List MemorixDocument),
      (∀ h ∈ hits, (d0.id == h.id) = false) → lastBump "T" d0 hits = d0) :=
  searchObservations_c9_access trivCtx regC5 indexC5 optsC5 "T"

/-- C9 counterexample: on a search whose project filter resolves to two
aliases, the raw index query returns a document outside the alias set; it is
absent from the returned entries (only id 1 is returned) yet its access
count is still incremented and its last access time still set, refuting the
claim that only returned hits are updated. -/
theorem searchObservations_c9_counterexample :
    ((searchObservations trivCtx regC5 indexC5 optsC5 "T").1.map (fun e => e.id) = [1]) ∧
    ((searchObservations trivCtx regC5 indexC5 optsC5 "T").2.any
      (fun d => d.observationId == 2 && d.accessCount == 1 && d.lastAccessedAt == "T")
      = true) := by
  decide

/-! ## C5 — alias-aware project filtering of search -/

/-- Helper: the token budget only returns entries drawn from its input. -/
theorem applyTokenBudgetGo_mem (m : Nat) :
    ∀ (l : List IndexEntry) (used : Nat) (b : Bool),
      ∀ e ∈ applyTokenBudgetGo m l used b, e ∈ l := by
  intro l
  induction l with
  | nil =>
    intro used b e he
    simp [applyTokenBudgetGo] at he
  | cons x rest ih =>
    intro used b e he
    by_cases hc : m < used + x.tokens ∧ b = true
    · have : applyTokenBudgetGo m (x :: rest) used b = [] := by
        rcases hc with ⟨h1, h2⟩
        subst h2
        simp [applyTokenBudgetGo, h1]
      rw [this] at he
      simp at he
    · have : applyTokenBudgetGo m (x :: rest) used b
          = x :: applyTokenBudgetGo m rest (used + x.tokens) true := by
        rcases Decidable.not_and_iff_or_not.mp hc with h1 | h2
        · simp [applyTokenBudgetGo, h1]
        · have hb : b = false := by simpa using h2
          subst hb
          simp [applyTokenBudgetGo]
      rw [this] at he
      rcases List.mem_cons.mp he with rfl | hmem
      · exact List.mem_cons_self _ _
      · exact List.mem_cons_of_mem x (ih (used + x.tokens) true e hmem)

/-- Helper: the token budget never returns more entries than it was given. -/
theorem applyTokenBudgetGo_length_le (m : Nat) :
    ∀ (l : List IndexEntry) (used : Nat) (b : Bool),
      (applyTokenBudgetGo m l used b).length ≤ l.length := by
  intro l
  induction l with
  | nil =>
    intro used b
    simp [applyTokenBudgetGo]
  | cons x rest ih =>
    intro used b
    by_cases hc : m < used + x.tokens ∧ b = true
    · have : applyTokenBudgetGo m (x :: rest) used b = [] := by
        rcases hc with ⟨h1, h2⟩
        subst h2
        simp [applyTokenBudgetGo, h1]
      simp [this]
    · have : applyTokenBudgetGo m (x :: rest) used b
          = x :: applyTokenBudgetGo m rest (used + x.tokens) true := by
        rcases Decidable.not_and_iff_or_not.mp hc with h1 | h2
        · simp [applyTokenBudgetGo, h1]
        · have hb : b = false := by simpa using h2
          subst hb
          simp [applyTokenBudgetGo]
      rw [this]
      simpa using ih (used + x.tokens) true

/-- Helper: annotation keeps the id of every entry. -/
theorem annotateEntries_mem (q : Option String) (hits : List MemorixDocument)
    (entries : List IndexEntry) :
    ∀ e ∈ annotateEntries q hits entries, ∃ e0 ∈ entries, e.id = e0.id := by
  intro e he
  cases q with
  | none => exact ⟨e, he, rfl⟩
  | some query =>
    simp only [annotateEntries] at he
    by_cases hq : (query.trim == "") = true
    · rw [if_pos hq] at he
      exact ⟨e, he, rfl⟩
    · rw [if_neg hq] at he
      obtain ⟨e0, he0, rfl⟩ := List.mem_map.mp he
      refine ⟨e0, he0, ?_⟩
      cases hf : hits.find? (fun d => d.observationId == e0.id) with
      | none => simp [hf]
      | some d => simp [hf]

/-- Helper: annotation keeps the length of the entry list. -/
theorem annotateEntries_length (q : Option String) (hits : List MemorixDocument)
    (entries : List IndexEntry) :
    (annotateEntries q hits entries).length = entries.length := by
  cases q with
  | none => rfl
  | some query =>
    simp only [annotateEntries]
    by_cases hq : (query.trim == "") = true
    · rw [if_pos hq]
    · rw [if_neg hq]
      simp

/-- Helper: the returned entry list is never longer than the post-filtered
document list it is built from. -/
theorem searchEntries_length_le (ctx : SearchCtx) (reg : AliasRegistry)
    (index : List MemorixDocument) (options : SearchOptions) :
    (searchEntries ctx reg index options).length
      ≤ (limitedDocs ctx reg index options).length := by
  have hmap : ((limitedDocs ctx reg index options).map (entryOfDoc ctx)).length
      = (limitedDocs ctx reg index options).length := by simp
  have hann := annotateEntries_length options.query (searchRawHits ctx reg index options)
    ((limitedDocs ctx reg index options).map (entryOfDoc ctx))
  show (match options.maxTokens with
      | some m => if 0 < m
          then applyTokenBudget (annotateEntries options.query
            (searchRawHits ctx reg index options)
            ((limitedDocs ctx reg index options).map (entryOfDoc ctx))) m
          else annotateEntries options.query (searchRawHits ctx reg index options)
            ((limitedDocs ctx reg index options).map (entryOfDoc ctx))
      | none => annotateEntries options.query (searchRawHits ctx reg index options)
          ((limitedDocs ctx reg index options).map (entryOfDoc ctx))).length
    ≤ (limitedDocs ctx reg index options).length
  cases hmt : options.maxTokens with
  | none =>
    dsimp only
    rw [hann, hmap]
  | some m =>
    dsimp only
    by_cases hm : 0 < m
    · rw [if_pos hm]
      calc (applyTokenBudget (annotateEntries options.query
            (searchRawHits ctx reg index options)
            ((limitedDocs ctx reg index options).map (entryOfDoc ctx))) m).length
          ≤ (annotateEntries options.query (searchRawHits ctx reg index options)
              ((limitedDocs ctx reg index options).map (entryOfDoc ctx))).length :=
            applyTokenBudgetGo_length_le m _ 0 false
        _ = (limitedDocs ctx reg index options).length := by rw [hann, hmap]
    · rw [if_neg hm, hann, hmap]

/-- Helper: every returned entry carries the observation id of a document
that survived the whole post-filter pipeline. -/
theorem searchEntries_mem (ctx : SearchCtx) (reg : AliasRegistry)
    (index : List MemorixDocument) (options : SearchOptions) :
    ∀ e ∈ searchEntries ctx reg index options,
      ∃ d ∈ limitedDocs ctx reg index options, d.observationId = e.id := by
  intro e he
  have he2 : e ∈ annotateEntries options.query (searchRawHits ctx reg index options)
      ((limitedDocs ctx reg index options).map (entryOfDoc ctx)) := by
    revert he
    show e ∈ (match options.maxTokens with
        | some m => if 0 < m
            then applyTokenBudget (annotateEntries options.query
              (searchRawHits ctx reg index options)
              ((limitedDocs ctx reg index options).map (entryOfDoc ctx))) m
            else annotateEntries options.query (searchRawHits ctx reg index options)
              ((limitedDocs ctx reg index options).map (entryOfDoc ctx))
        | none => annotateEntries options.query (searchRawHits ctx reg index options)
            ((limitedDocs ctx reg index options).map (entryOfDoc ctx))) → _
    cases hmt : options.maxTokens with
    | none => exact id
    | some m =>
      dsimp only
      by_cases hm : 0 < m
      · rw [if_pos hm]
        intro he
        exact applyTokenBudgetGo_mem m _ 0 false e he
      · rw [if_neg hm]
        exact id
  obtain ⟨e0, he0, hid⟩ := annotateEntries_mem options.query
    (searchRawHits ctx reg index options)
    ((limitedDocs ctx reg index options).map (entryOfDoc ctx)) e he2
  obtain ⟨d, hd, hde⟩ := List.mem_map.mp he0
  refine ⟨d, hd, ?_⟩
  rw [hid, ← hde]
  rfl

/-- Helper: every raw hit is an index document satisfying the where filter. -/
theorem searchRawHits_mem (ctx : SearchCtx) (reg : AliasRegistry)
    (index : List MemorixDocument) (options : SearchOptions)
    (hR : RankSound ctx.rank) :
    ∀ d ∈ searchRawHits ctx reg index options,
      d ∈ index ∧ matchesWhere (whereOf reg options) d = true := by
  intro d hd
  have h1 : d ∈ ctx.rank options (index.filter (matchesWhere (whereOf reg options))) :=
    List.mem_of_mem_take hd
  have h2 := hR options _ d h1
  exact ⟨(List.mem_filter.mp h2).1, (List.mem_filter.mp h2).2⟩

/-- Helper: the temporal filter only returns documents drawn from its
input. -/
theorem temporalFilter_sub (ctx : SearchCtx) (options : SearchOptions)
    (docs : List MemorixDocument) :
    ∀ d ∈ temporalFilter ctx options docs, d ∈ docs := by
  intro d hd
  unfold temporalFilter at hd
  have hd2 : d ∈ (match options.since with
      | some s => if s == "" then docs
          else docs.filter (fun d => ctx.dateVal s ≤ ctx.dateVal d.createdAt)
      | none => docs) := by
    rcases hu : options.untilDate with _ | u
    · rw [hu] at hd
      dsimp only at hd
      exact hd
    · rw [hu] at hd
      dsimp only at hd
      by_cases h0 : (u == "") = true
      · rw [if_pos h0] at hd
        exact hd
      · rw [if_neg h0] at hd
        exact (List.mem_filter.mp hd).1
  rcases hs : options.since with _ | s
  · rw [hs] at hd2
    dsimp only at hd2
    exact hd2
  · rw [hs] at hd2
    dsimp only at hd2
    by_cases h0 : (s == "") = true
    · rw [if_pos h0] at hd2
      exact hd2
    · rw [if_neg h0] at hd2
      exact (List.mem_filter.mp hd2).1

/-- Helper: the post-filter pipeline only returns documents that survived
the alias post-filter over the raw hits. -/
theorem limitedDocs_sub (ctx : SearchCtx) (reg : AliasRegistry)
    (index : List MemorixDocument) (options : SearchOptions) :
    ∀ d ∈ limitedDocs ctx reg index options,
      d ∈ aliasPostFilter (projectIdsOf reg options) (searchRawHits ctx reg index options) := by
  intro d hd
  unfold limitedDocs at hd
  have hd2 : d ∈ temporalFilter ctx options
      (aliasPostFilter (projectIdsOf reg options) (searchRawHits ctx reg index options)) := by
    revert hd
    by_cases hm : isMultiAlias reg options = true
    · rw [if_pos hm]
      exact List.mem_of_mem_take
    · rw [if_neg hm]
      exact id
  exact temporalFilter_sub ctx options _ d hd2

/-- Helper: the alias post-filter keeps only documents whose project id is
in the alias set whenever that set has more than one element. -/
theorem aliasPostFilter_multi (ps : List String) (hits : List MemorixDocument)
    (d : MemorixDocument) (hd : d ∈ aliasPostFilter (some ps) hits)
    (hlen : 1 < ps.length) : d.projectId ∈ ps := by
  have hp := (List.mem_filter.mp hd).2
  dsimp only at hp
  rw [if_neg (by omega : ¬ ps.length ≤ 1)] at hp
  simpa using hp

/-- Helper: under a well-formed registry the alias set of any id is
nonempty. -/
theorem resolveAliases_ne_nil (reg : AliasRegistry) (P : String)
    (hW : ∀ g ∈ reg.groups, g.canonical ∈ g.aliases) :
    resolveAliases reg P ≠ [] := by
  unfold resolveAliases
  cases hf : reg.groups.find? (fun g => g.aliases.contains P || g.canonical == P) with
  | none => simp
  | some g =>
    have hp := List.find?_some hf
    have hg : g ∈ reg.groups := List.mem_of_find?_eq_some hf
    intro hnil
    dsimp only at hnil
    rcases Bool.or_eq_true_iff.mp hp with hc | hc
    · have hmem : P ∈ g.aliases := by simpa using hc
      rw [hnil] at hmem
      simp at hmem
    · have hmem := hW g hg
      rw [hnil] at hmem
      simp at hmem

/-- C5: under a sound ranking and a registry whose groups list their
canonical id, every entry returned by a search with a truthy project filter
P stems from an index document whose project id lies in resolveAliases(P);
when the alias set is a singleton that id is pushed down as the index-side
where filter; and when the alias set has several elements the index query
asks for three times the caller limit while the returned entry list is still
cut to the original limit. -/
theorem searchObservations_c5_alias_filter (ctx : SearchCtx) (reg : AliasRegistry)
    (index : List MemorixDocument) (options : SearchOptions) (now : String) (P : String)
    (hR : RankSound ctx.rank)
    (hW : ∀ g ∈ reg.groups, g.canonical ∈ g.aliases)
    (hP : options.projectId = some P) (hPne : P ≠ "") :
    (∀ e ∈ (searchObservations ctx reg index options now).1,
      ∃ d ∈ index, d.observationId = e.id ∧ d.projectId ∈ resolveAliases reg P) ∧
    (∀ p, resolveAliases reg P = [p] → (whereOf reg options).projectId = some p) ∧
    (1 < (resolveAliases reg P).length →
      requestLimitOf reg options = options.limit.getD 20 * 3 ∧
      (searchObservations ctx reg index options now).1.length ≤ options.limit.getD 20) := by
  have hPb : (P == "") = false := by simpa using hPne
  have hpids : projectIdsOf reg options = some (resolveAliases reg P) := by
    unfold projectIdsOf
    rw [hP]
    simp [hPb]
  have hfst : (searchObservations ctx reg index options now).1
      = searchEntries ctx reg index options := rfl
  refine ⟨?_, ?_, ?_⟩
  · intro e he
    rw [hfst] at he
    obtain ⟨d, hd, hdid⟩ := searchEntries_mem ctx reg index options e he
    have hdpost := limitedDocs_sub ctx reg index options d hd
    have hdhits := (List.mem_filter.mp hdpost).1
    obtain ⟨hdindex, hdwhere⟩ := searchRawHits_mem ctx reg index options hR d hdhits
    refine ⟨d, hdindex, hdid, ?_⟩
    rcases hps : resolveAliases reg P with _ | ⟨p, ps2⟩
    · exact absurd hps (resolveAliases_ne_nil reg P hW)
    · rcases ps2 with _ | ⟨p2, rest⟩
      · have hwp : (whereOf reg options).projectId = some p := by
          show (match projectIdsOf reg options with
            | some [p] => some p
            | _ => none) = some p
          rw [hpids, hps]
        have hmw : (d.projectId == p) = true := by
          have h := hdwhere
          unfold matchesWhere at h
          rw [hwp] at h
          rw [Bool.and_eq_true] at h
          exact h.1
        have : d.projectId = p := by simpa using hmw
        simp [this]
      · have hlen : 1 < (resolveAliases reg P).length := by
          rw [hps]
          simp
        rw [hpids] at hdpost
        have := aliasPostFilter_multi (resolveAliases reg P)
          (searchRawHits ctx reg index options) d hdpost hlen
        rw [hps] at this
        exact this
  · intro p hps
    show (match projectIdsOf reg options with
      | some [p] => some p
      | _ => none) = some p
    rw [hpids, hps]
  · intro hlen
    have hmulti : isMultiAlias reg options = true := by
      unfold isMultiAlias
      rw [hpids]
      simpa using hlen
    constructor
    · unfold requestLimitOf
      rw [if_pos hmulti]
    · rw [hfst]
      have h1 := searchEntries_length_le ctx reg index options
      have h2 : (limitedDocs ctx reg index options).length ≤ options.limit.getD 20 := by
        unfold limitedDocs
        rw [if_pos hmulti]
        simp
      omega

/-- C5 witness: the alias-filter contract instantiated on a concrete search
against a registry with a two-element alias group. -/
theorem searchObservations_c5_alias_filter_witness :
    (∀ e ∈ (searchObservations trivCtx regC5 indexC5 optsC5 "T").1,
      ∃ d ∈ indexC5, d.observationId = e.id
        ∧ d.projectId ∈ resolveAliases regC5 "local/app") ∧
    (∀ p, resolveAliases regC5 "local/app" = [p]
      → (whereOf regC5 optsC5).projectId = some p) ∧
    (1 < (resolveAliases regC5 "local/app").length →
      requestLimitOf regC5 optsC5 = optsC5.limit.getD 20 * 3 ∧
      (searchObservations trivCtx regC5 indexC5 optsC5 "T").1.length
        ≤ optsC5.limit.getD 20) :=
  searchObservations_c5_alias_filter trivCtx regC5 indexC5 optsC5 "T" "local/app"
    (fun _ _ _ h => h) (by decide) rfl (by decide)

/-! ## C7 — alias registry invariant -/

/-- Helper: the stable sort is empty exactly when its input is. -/
theorem stableSortBy_eq_nil_iff {lt : α → α → Bool} {l : List α} :
    stableSortBy lt l = [] ↔ l = [] := by
  constructor
  · intro h
    rw [List.eq_nil_iff_forall_not_mem]
    intro x hx
    have hmem : x ∈ stableSortBy lt l := stableSortBy_mem.mpr hx
    rw [h] at hmem
    simp at hmem
  · intro h
    subst h
    rfl

/-- Helper: stable insertion preserves descending sortedness by priority. -/
theorem insertBefore_pairwise_desc (x : String) :
    ∀ l : List String,
      l.Pairwise (fun a b => idPriority b ≤ idPriority a) →
      (insertBefore (fun a b => idPriority b < idPriority a) x l).Pairwise
        (fun a b => idPriority b ≤ idPriority a) := by
  intro l
  induction l with
  | nil =>
    intro _
    simp [insertBefore]
  | cons y ys ih =>
    intro h
    rw [List.pairwise_cons] at h
    obtain ⟨hy, hys⟩ := h
    by_cases hlt : idPriority y < idPriority x
    · have hins : insertBefore (fun a b => idPriority b < idPriority a) x (y :: ys)
          = x :: y :: ys := by
        simp [insertBefore, hlt]
      rw [hins, List.pairwise_cons]
      refine ⟨?_, List.pairwise_cons.mpr ⟨hy, hys⟩⟩
      intro z hz
      rcases List.mem_cons.mp hz with rfl | hz2
      · omega
      · have := hy z hz2
        omega
    · have hins : insertBefore (fun a b => idPriority b < idPriority a) x (y :: ys)
          = y :: insertBefore (fun a b => idPriority b < idPriority a) x ys := by
        simp [insertBefore, hlt]
      rw [hins, List.pairwise_cons]
      refine ⟨?_, ih hys⟩
      intro z hz
      rcases insertBefore_mem.mp hz with rfl | hz2
      · omega
      · exact hy z hz2

/-- Helper: the fold of stable insertions keeps descending sortedness. -/
theorem stableSortBy_foldl_pairwise :
    ∀ (l acc : List String),
      acc.Pairwise (fun a b => idPriority b ≤ idPriority a) →
      (l.foldl (fun acc a => insertBefore (fun a b => idPriority b < idPriority a) a acc)
        acc).Pairwise (fun a b => idPriority b ≤ idPriority a) := by
  intro l
  induction l with
  | nil =>
    intro acc h
    exact h
  | cons a rest ih =>
    intro acc h
    exact ih _ (insertBefore_pairwise_desc a acc h)

/-- Helper: the stable descending sort by priority is descending-sorted. -/
theorem stableSortBy_pairwise_desc (l : List String) :
    (stableSortBy (fun a b => idPriority b < idPriority a) l).Pairwise
      (fun a b => idPriority b ≤ idPriority a) :=
  stableSortBy_foldl_pairwise l [] List.Pairwise.nil

/-- Helper: the selected canonical id is one of the aliases. -/
theorem selectCanonical_mem (aliases : List String) (h : aliases ≠ []) :
    selectCanonical aliases ∈ aliases := by
  rcases hs : stableSortBy (fun a b => idPriority b < idPriority a) aliases with _ | ⟨c, rest⟩
  · exact absurd (stableSortBy_eq_nil_iff.mp hs) h
  · have hsel : selectCanonical aliases = c := by
      unfold selectCanonical
      rw [hs]
      rfl
    rw [hsel]
    have hmem : c ∈ stableSortBy (fun a b => idPriority b < idPriority a) aliases := by
      rw [hs]
      exact List.mem_cons_self _ _
    exact stableSortBy_mem.mp hmem

/-- Helper: no alias outranks the selected canonical id. -/
theorem selectCanonical_max (aliases : List String) (a : String) (ha : a ∈ aliases) :
    idPriority a ≤ idPriority (selectCanonical aliases) := by
  have hne : aliases ≠ [] := by
    rintro rfl
    simp at ha
  rcases hs : stableSortBy (fun a b => idPriority b < idPriority a) aliases with _ | ⟨c, rest⟩
  · exact absurd (stableSortBy_eq_nil_iff.mp hs) hne
  · have hsel : selectCanonical aliases = c := by
      unfold selectCanonical
      rw [hs]
      rfl
    rw [hsel]
    have hmemS : a ∈ c :: rest := by
      rw [← hs]
      exact stableSortBy_mem.mpr ha
    have hpw := stableSortBy_pairwise_desc aliases
    rw [hs, List.pairwise_cons] at hpw
    rcases List.mem_cons.mp hmemS with rfl | hmem
    · exact le_refl _
    · exact hpw.1 a hmem

/-- Helper: the group obtained by recomputing the canonical id from a
nonempty alias list satisfies the canonical-priority invariant. -/
theorem groupInv_set_canonical (g : AliasGroup) (h : g.aliases ≠ []) :
    ({ g with canonical := selectCanonical g.aliases }).canonical
      ∈ ({ g with canonical := selectCanonical g.aliases }).aliases ∧
    ∀ a ∈ ({ g with canonical := selectCanonical g.aliases }).aliases,
      idPriority a ≤ idPriority ({ g with canonical := selectCanonical g.aliases }).canonical := by
  refine ⟨?_, ?_⟩
  · show selectCanonical g.aliases ∈ g.aliases
    exact selectCanonical_mem g.aliases h
  · intro a ha
    exact selectCanonical_max g.aliases a ha

/-- Helper: elements of an updateFirst result are old elements or the image
of an old element. -/
theorem updateFirst_mem {p : α → Bool} {f : α → α} :
    ∀ (l : List α) (x : α), x ∈ updateFirst p f l → x ∈ l ∨ ∃ y, y ∈ l ∧ x = f y := by
  intro l
  induction l with
  | nil =>
    intro x hx
    simp [updateFirst] at hx
  | cons a as ih =>
    intro x hx
    rw [updateFirst] at hx
    by_cases hp : p a = true
    · rw [if_pos hp] at hx
      rcases List.mem_cons.mp hx with rfl | hx2
      · exact Or.inr ⟨a, List.mem_cons_self a as, rfl⟩
      · exact Or.inl (List.mem_cons_of_mem a hx2)
    · rw [if_neg hp] at hx
      rcases List.mem_cons.mp hx with rfl | hx2
      · exact Or.inl (List.mem_cons_self _ _)
      · rcases ih x hx2 with hmem | ⟨y, hy, hxy⟩
        · exact Or.inl (List.mem_cons_of_mem a hmem)
        · exact Or.inr ⟨y, List.mem_cons_of_mem a hy, hxy⟩

/-- Helper: merging a detection into a group yields a group satisfying the
canonical-priority invariant. -/
theorem mergeIntoGroup_inv (info : ProjectInfo) (g : AliasGroup) :
    (mergeIntoGroup info g).canonical ∈ (mergeIntoGroup info g).aliases ∧
    ∀ a ∈ (mergeIntoGroup info g).aliases,
      idPriority a ≤ idPriority (mergeIntoGroup info g).canonical := by
  have hal : (mergeIntoGroup info g).aliases
      = if g.aliases.contains info.id then g.aliases else g.aliases ++ [info.id] := rfl
  have hcan : (mergeIntoGroup info g).canonical
      = selectCanonical
          (if g.aliases.contains info.id then g.aliases else g.aliases ++ [info.id]) := rfl
  have hne : (if g.aliases.contains info.id then g.aliases
      else g.aliases ++ [info.id]) ≠ [] := by
    by_cases hc : g.aliases.contains info.id = true
    · rw [if_pos hc]
      intro hnil
      rw [hnil] at hc
      simp at hc
    · rw [if_neg hc]
      simp
  constructor
  · rw [hal, hcan]
    exact selectCanonical_mem _ hne
  · intro a ha
    rw [hal] at ha
    rw [hcan]
    exact selectCanonical_max _ a ha

/-- Helper: registerAlias preserves the canonical-priority invariant. -/
theorem registerAlias_inv (reg : AliasRegistry) (info : ProjectInfo)
    (h : CanonInv reg) : CanonInv (registerAlias reg info).1 := by
  intro g' hg'
  unfold registerAlias at hg'
  cases hf : reg.groups.find? (groupMatches info) with
  | some g0 =>
    rw [hf] at hg'
    dsimp only at hg'
    rcases updateFirst_mem reg.groups g' hg' with hold | ⟨y, hy, rfl⟩
    · exact h g' hold
    · exact mergeIntoGroup_inv info y
  | none =>
    rw [hf] at hg'
    dsimp only at hg'
    rcases List.mem_append.mp hg' with hold | hnew
    · exact h g' hold
    · have hgeq : g' = { canonical := info.id, aliases := [info.id], rootPaths := [normalizePath info.rootPath], gitRemote := info.gitRemote } := by
        simpa using hnew
      rw [hgeq]
      refine ⟨by simp, ?_⟩
      intro a ha
      have haeq : a = info.id := by simpa using ha
      rw [haeq]

/-- Helper: pushNew returns a nonempty list when either side is nonempty. -/
theorem pushNew_ne_nil : ∀ (ids base : List String),
    (base ≠ [] ∨ ids ≠ []) → pushNew base ids ≠ [] := by
  intro ids
  induction ids with
  | nil =>
    intro base h
    rcases h with h | h
    · simpa [pushNew] using h
    · exact absurd rfl h
  | cons a rest ih =>
    intro base _
    have hstep : pushNew base (a :: rest)
        = pushNew (if base.contains a then base else base ++ [a]) rest := rfl
    rw [hstep]
    apply ih
    left
    by_cases hc : base.contains a = true
    · rw [if_pos hc]
      intro hnil
      rw [hnil] at hc
      simp at hc
    · rw [if_neg hc]
      simp

/-- Helper: absorbing groups keeps the alias list nonempty. -/
theorem absorb_foldl_aliases_ne_nil :
    ∀ (others : List AliasGroup) (primary : AliasGroup),
      primary.aliases ≠ [] → (others.foldl absorbGroup primary).aliases ≠ [] := by
  intro others
  induction others with
  | nil =>
    intro primary h
    exact h
  | cons o rest ih =>
    intro primary h
    apply ih
    show pushNew primary.aliases o.aliases ≠ []
    exact pushNew_ne_nil o.aliases primary.aliases (Or.inl h)

/-- Helper: a member of a rebuilt group list is the merged primary group or
one of the original groups. -/
theorem rebuildGroups_mem (pIdx : Nat) (oIdxs : List Nat) (p : AliasGroup) :
    ∀ (l : List AliasGroup) (i : Nat) (g : AliasGroup),
      g ∈ rebuildGroups pIdx oIdxs p i l → g = p ∨ g ∈ l := by
  intro l
  induction l with
  | nil =>
    intro i g hg
    simp [rebuildGroups] at hg
  | cons a as ih =>
    intro i g hg
    rw [rebuildGroups] at hg
    by_cases h1 : oIdxs.contains i = true
    · rw [if_pos h1] at hg
      rcases ih (i + 1) g hg with hx | hx
      exacts [Or.inl hx, Or.inr (List.mem_cons_of_mem a hx)]
    · rw [if_neg h1] at hg
      by_cases h2 : (i == pIdx) = true
      · rw [if_pos h2] at hg
        rcases List.mem_cons.mp hg with rfl | hg2
        · exact Or.inl rfl
        · rcases ih (i + 1) g hg2 with hx | hx
          exacts [Or.inl hx, Or.inr (List.mem_cons_of_mem a hx)]
      · rw [if_neg h2] at hg
        rcases List.mem_cons.mp hg with rfl | hg2
        · exact Or.inr (List.mem_cons_self _ _)
        · rcases ih (i + 1) g hg2 with hx | hx
          exacts [Or.inl hx, Or.inr (List.mem_cons_of_mem a hx)]

/-- Helper: one merge step preserves the canonical-priority invariant. -/
theorem mergeStep_inv (groups : List AliasGroup) (ids : List String)
    (h : ∀ g ∈ groups, g.canonical ∈ g.aliases
      ∧ ∀ a ∈ g.aliases, idPriority a ≤ idPriority g.canonical) :
    ∀ g ∈ (mergeStep groups ids).1,
      g.canonical ∈ g.aliases ∧ ∀ a ∈ g.aliases, idPriority a ≤ idPriority g.canonical := by
  intro g' hg'
  simp only [mergeStep] at hg'
  by_cases h1 : ids.length ≤ 1
  · rw [if_pos h1] at hg'
    exact h g' hg'
  · rw [if_neg h1] at hg'
    have hids : ids ≠ [] := by
      intro hnil
      rw [hnil] at h1
      simp at h1
    split at hg'
    · exact h g' hg'
    · split at hg'
      · dsimp only at hg'
        rcases List.mem_append.mp hg' with hold | hnew
        · exact h g' hold
        · have hgeq : g' = { canonical := selectCanonical ids, aliases := ids, rootPaths := [], gitRemote := none } := by
            simpa using hnew
          rw [hgeq]
          exact ⟨selectCanonical_mem ids hids, fun a ha => selectCanonical_max ids a ha⟩
      · dsimp only at hg'
        rcases rebuildGroups_mem _ _ _ groups 0 g' hg' with rfl | hmem
        · apply groupInv_set_canonical
          apply absorb_foldl_aliases_ne_nil
          show pushNew _ ids ≠ []
          exact pushNew_ne_nil ids _ (Or.inr hids)
        · exact h g' hmem

/-- Helper: the fold of merge steps preserves the invariant. -/
theorem autoMerge_foldl_inv :
    ∀ (l : List (String × List String)) (g0 : List AliasGroup) (n0 : Nat),
      (∀ g ∈ g0, g.canonical ∈ g.aliases
        ∧ ∀ a ∈ g.aliases, idPriority a ≤ idPriority g.canonical) →
      ∀ g ∈ (l.foldl (fun acc p => ((mergeStep acc.1 p.2).1, acc.2 + (mergeStep acc.1 p.2).2))
          (g0, n0)).1,
        g.canonical ∈ g.aliases ∧ ∀ a ∈ g.aliases, idPriority a ≤ idPriority g.canonical := by
  intro l
  induction l with
  | nil =>
    intro g0 n0 h g hg
    exact h g hg
  | cons p rest ih =>
    intro g0 n0 h g hg
    exact ih (mergeStep g0 p.2).1 (n0 + (mergeStep g0 p.2).2) (mergeStep_inv g0 p.2 h) g hg

/-- Helper: autoMergeByBaseName preserves the canonical-priority invariant. -/
theorem autoMergeByBaseName_inv (reg : AliasRegistry) (ids : List String)
    (h : CanonInv reg) : CanonInv (autoMergeByBaseName reg ids).1 := by
  intro g' hg'
  simp only [autoMergeByBaseName] at hg'
  by_cases h1 : ids.length ≤ 1
  · rw [if_pos h1] at hg'
    exact h g' hg'
  · rw [if_neg h1] at hg'
    exact autoMerge_foldl_inv (groupByBaseName ids) reg.groups 0 h g' hg'

/-- C7 counterexample: from the empty registry, registering a local project
at one root, then a git project at another root, then the git id detected at
the first root, leaves the id acme/app listed in two distinct groups:
registerAlias matched the first group by root path even though a second
group already listed the id, refuting the every-id-in-at-most-one-group
half of the claim. -/
theorem registerAlias_c7_counterexample :
    ((runRegistryOps [RegistryOp.register piC7a, RegistryOp.register piC7b,
        RegistryOp.register piC7c]).groups.filter
      (fun g => g.aliases.contains "acme/app")).length = 2 := by
  decide

/-- C7 amended: after every sequence of registerAlias and
autoMergeByBaseName calls starting from the empty registry, every group
lists its canonical id among its aliases and the canonical id has maximal
priority (git-remote form above local form above placeholder form) within
the group; the other half of the claim fails, because an id may end up in
more than one group when registerAlias matches a group by root path or git
remote while another group already lists the id. -/
theorem runRegistryOps_c7_canonical (ops : List RegistryOp) :
    CanonInv (runRegistryOps ops) := by
  have hgen : ∀ (l : List RegistryOp) (reg : AliasRegistry), CanonInv reg →
      CanonInv (l.foldl applyRegistryOp reg) := by
    intro l
    induction l with
    | nil =>
      intro reg h
      exact h
    | cons op rest ih =>
      intro reg h
      apply ih
      cases op with
      | register info => exact registerAlias_inv reg info h
      | autoMerge ids => exact autoMergeByBaseName_inv reg ids h
  have hempty : CanonInv { groups := [] } := by
    intro g hg
    simp at hg
  exact hgen ops { groups := [] } hempty

/-- C7 witness: the amended invariant evaluated on the concrete
three-registration sequence of the counterexample. -/
theorem runRegistryOps_c7_canonical_witness :
    CanonInv (runRegistryOps [RegistryOp.register piC7a, RegistryOp.register piC7b,
      RegistryOp.register piC7c]) :=
  runRegistryOps_c7_canonical
    [RegistryOp.register piC7a, RegistryOp.register piC7b, RegistryOp.register piC7c]

end Memorix
